import Mathlib

/-!
Shallow embedding of the End-VLM-data-collector core components that the
verified claims are about:

* `src/core/src/lib.rs`    — event model (`InputEvent`, snapshots, …)
* `src/input/src/lib.rs`   — `RawInputCollector` / `MockInputCollector`
* `src/aggregator/src/lib.rs` — `aggregate_window`
* `src/compiler/src/lib.rs`   — `compile_action_string` and helpers
* `src/writer/src/lib.rs`     — `SessionWriter::finalize`

Modelling conventions:

* Rust `String` is modelled as `Str := List Char` (byte-wise operations on
  the key names used here are all ASCII, so `List Char` with `Char`
  comparison agrees with Rust's byte-wise `Ord for String`).
* `u64` values (QPC timestamps, counters) are `Nat` with explicit
  saturation where the source uses `saturating_add` / `saturating_sub`.
* `i32` values are `Int`; `i32::saturating_add` is `satAddI32`.
* Rust `HashSet<String>` is modelled as a duplicate-free `List Str`
  (`setInsert` / `setRemove` / membership).  The source only observes the
  set through membership and through sorting (`sorted_vec`, `sort_keys`),
  so the iteration order of the hash set is never visible.
* `VecDeque` is a `List` whose head is the deque front.
-/

namespace Collector

/-- Rust `String`, modelled as a list of characters. -/
abbrev Str := List Char

/-- `QpcTimestamp = u64` (src/core/src/lib.rs:3). -/
abbrev QpcTimestamp := Nat

/-- `StepIndex = u64` (src/core/src/lib.rs:4). -/
abbrev StepIndex := Nat

/-- Largest `u64` value, for modelling `u64::saturating_add`. -/
def U64_MAX : Nat := 18446744073709551615

/-- `u64::saturating_add` on the `Nat` model of `u64`. -/
def u64SatAdd (a b : Nat) : Nat :=
  min (a + b) U64_MAX

/-- `i32::MIN`. -/
def I32_MIN : Int := -2147483648

/-- `i32::MAX`. -/
def I32_MAX : Int := 2147483647

/-- `i32::saturating_add` on the `Int` model of `i32`. -/
def satAddI32 (a b : Int) : Int :=
  if a + b > I32_MAX then I32_MAX
  else if a + b < I32_MIN then I32_MIN
  else a + b

/-- Byte-wise (here: character-wise) strict lexicographic order on `Str`,
matching Rust's `Ord for String` on ASCII data. -/
def strLt : Str → Str → Bool
  | [], [] => false
  | [], _ :: _ => true
  | _ :: _, [] => false
  | a :: as, b :: bs =>
    if a < b then true
    else if b < a then false
    else strLt as bs

/-- `HashSet::insert`: add an element unless already present.  The new
element is appended so existing proofs about prefixes stay simple; only
membership and sorted views of the set are ever observed. -/
def setInsert (l : List Str) (k : Str) : List Str :=
  if k ∈ l then l else l ++ [k]

/-- `HashSet::remove`. -/
def setRemove (l : List Str) (k : Str) : List Str :=
  l.filter (fun x => x ≠ k)

/-- Insertion of one element into a list sorted by `le`. -/
def insertSorted (le : Str → Str → Bool) (k : Str) : List Str → List Str
  | [] => [k]
  | x :: xs => if le k x then k :: x :: xs else x :: insertSorted le k xs

/-- Sorting by a boolean comparison; used to model `Vec::sort` /
`Vec::sort_by` (a total comparison makes the result independent of the
input order up to permutation of equal elements). -/
def sortBy (le : Str → Str → Bool) : List Str → List Str
  | [] => []
  | x :: xs => insertSorted le x (sortBy le xs)

/- ## Event model (src/core/src/lib.rs) -/

/-- `MouseButton` (src/core/src/lib.rs:261-268). -/
inductive MouseButton
  | left
  | right
  | middle
  | x1
  | x2
deriving DecidableEq, Repr

/-- `InputEventKind` (src/core/src/lib.rs:252-259). -/
inductive InputEventKind
  | keyDown (key : Str)
  | keyUp (key : Str)
  | mouseMove (dx dy : Int)
  | mouseWheel (delta : Int)
  | mouseButton (button : MouseButton) (is_down : Bool)
deriving DecidableEq, Repr

/-- `InputEvent` (src/core/src/lib.rs:246-250).  The field type is
written `Nat` (the definition of `QpcTimestamp`) so that arithmetic
automation sees through it. -/
structure InputEvent where
  qpc_ts : Nat
  kind : InputEventKind
deriving DecidableEq, Repr

/-- `MouseButtons` (src/core/src/lib.rs:153-160); `Default` is all-false
(src/core/src/lib.rs:214-224). -/
structure MouseButtons where
  left : Bool := false
  right : Bool := false
  middle : Bool := false
  x1 : Bool := false
  x2 : Bool := false
deriving DecidableEq, Repr

/-- `CursorSample` (src/core/src/lib.rs:162-167).  The two `f32` fields
are only ever copied, never computed on, in the components modelled here,
so they are carried as opaque bit patterns (`Nat`). -/
structure CursorSample where
  visible : Bool
  x_norm : Nat
  y_norm : Nat
deriving DecidableEq, Repr

/-- `WindowState` (src/core/src/lib.rs:139-142). -/
structure WindowState where
  is_foreground : Bool
deriving DecidableEq, Repr

/-- `MouseSnapshot` (src/core/src/lib.rs:144-151). -/
structure MouseSnapshot where
  dx : Int
  dy : Int
  wheel : Int
  buttons : MouseButtons
  cursor : CursorSample
deriving DecidableEq, Repr

/-- `KeyboardSnapshot` (src/core/src/lib.rs:169-174); `Default` is three
empty lists (src/core/src/lib.rs:236-244). -/
structure KeyboardSnapshot where
  down : List Str := []
  pressed : List Str := []
  released : List Str := []
deriving DecidableEq, Repr

/-- `ActionSnapshot` (src/core/src/lib.rs:130-137). -/
structure ActionSnapshot where
  step_index : StepIndex
  qpc_ts : Nat
  window : WindowState
  mouse : MouseSnapshot
  keyboard : KeyboardSnapshot
deriving DecidableEq, Repr

/- ## Input collector (src/input/src/lib.rs) -/

/-- `RawInputCollector` (src/input/src/lib.rs:14-19).  The OS-side
`inner` collector is not modelled; the events it would deliver through
`drain_into` are passed to `drain_events` explicitly as `pending`. -/
structure RawInputCollector where
  buffer : List InputEvent
  max_events : Nat
  dropped_events : Nat
deriving Repr

namespace RawInputCollector

/-- `RawInputCollector::take_dropped_events` (src/input/src/lib.rs:46-50):
returns the drop counter and resets it to zero. -/
def take_dropped_events (c : RawInputCollector) : Nat × RawInputCollector :=
  (c.dropped_events, { c with dropped_events := 0 })

/-- `RawInputCollector::enforce_limit` (src/input/src/lib.rs:52-61): if the
deque is over capacity, pop the excess from the front and count it. -/
def enforce_limit (c : RawInputCollector) : RawInputCollector :=
  if c.buffer.length ≤ c.max_events then c
  else
    let excess := c.buffer.length - c.max_events
    { c with
      buffer := c.buffer.drop excess
      dropped_events := u64SatAdd c.dropped_events excess }

/-- `RawInputCollector::drain_events` (src/input/src/lib.rs:65-79).
`pending` stands for the events `self.inner.drain_into(&mut self.buffer)`
appends to the back of the deque.  The two `while` loops pop from the
front while the front's timestamp is `< start` (discarded) respectively
`< end` (returned), which is exactly `dropWhile` / `takeWhile` on the
list-model of the deque. -/
def drain_events (c : RawInputCollector) (pending : List InputEvent)
    (start stop : Nat) : List InputEvent × RawInputCollector :=
  let c1 := enforce_limit { c with buffer := c.buffer ++ pending }
  let c2 := enforce_limit
    { c1 with buffer := c1.buffer.dropWhile (fun ev => ev.qpc_ts < start) }
  let out := c2.buffer.takeWhile (fun ev => ev.qpc_ts < stop)
  (out, { c2 with buffer := c2.buffer.dropWhile (fun ev => ev.qpc_ts < stop) })

end RawInputCollector

/-- `MockInputCollector` (src/input/src/lib.rs:82-85). -/
structure MockInputCollector where
  events : List InputEvent
  index : Nat
deriving Repr

namespace MockInputCollector

/-- `MockInputCollector::drain_events` (src/input/src/lib.rs:94-104): the
first `while` advances `index` past events with `qpc_ts < start`, the
second collects events with `qpc_ts < end`. -/
def drain_events (c : MockInputCollector) (start stop : Nat) :
    List InputEvent × MockInputCollector :=
  let rest := c.events.drop c.index
  let rest2 := rest.dropWhile (fun ev => ev.qpc_ts < start)
  let out := rest2.takeWhile (fun ev => ev.qpc_ts < stop)
  (out, { c with index := c.index + (rest.length - rest2.length) + out.length })

end MockInputCollector

/- ## Aggregator (src/aggregator/src/lib.rs) -/

/-- `CursorProvider` (src/aggregator/src/lib.rs:8-13). -/
structure CursorProvider where
  visible : Bool
  x_norm : Nat
  y_norm : Nat
deriving DecidableEq, Repr

/-- `CursorProvider::sample` (src/aggregator/src/lib.rs:16-22). -/
def CursorProvider.sample (c : CursorProvider) : CursorSample :=
  { visible := c.visible, x_norm := c.x_norm, y_norm := c.y_norm }

/-- `AggregatorState` (src/aggregator/src/lib.rs:25-28). -/
structure AggregatorState where
  down_keys : List Str
deriving DecidableEq, Repr

/-- `mark_button` (src/aggregator/src/lib.rs:125-133). -/
def markButton (buttons : MouseButtons) : MouseButton → MouseButtons
  | .left => { buttons with left := true }
  | .right => { buttons with right := true }
  | .middle => { buttons with middle := true }
  | .x1 => { buttons with x1 := true }
  | .x2 => { buttons with x2 := true }

/-- `sorted_vec` (src/aggregator/src/lib.rs:119-123): collect the set and
`Vec::sort` it (lexicographically). -/
def sortedVec (input : List Str) : List Str :=
  sortBy (fun a b => !strLt b a) input

/-- The mutable accumulators of the event loop in `aggregate_window`
(src/aggregator/src/lib.rs:47-52 plus the `state.down_keys` set the loop
updates in place). -/
structure AggAcc where
  dx : Int
  dy : Int
  wheel : Int
  pressed : List Str
  released : List Str
  buttons : MouseButtons
  down : List Str
deriving Repr

/-- One iteration of the `for event in events.iter()` loop of
`aggregate_window` (src/aggregator/src/lib.rs:54-80), including the
skip of events outside `[window_start, window_end)`. -/
def aggStep (window_start window_end : Nat) (acc : AggAcc)
    (event : InputEvent) : AggAcc :=
  if event.qpc_ts < window_start ∨ window_end ≤ event.qpc_ts then acc
  else
    match event.kind with
    | .keyDown key =>
      { acc with down := setInsert acc.down key, pressed := setInsert acc.pressed key }
    | .keyUp key =>
      { acc with down := setRemove acc.down key, released := setInsert acc.released key }
    | .mouseMove edx edy =>
      { acc with dx := satAddI32 acc.dx edx, dy := satAddI32 acc.dy edy }
    | .mouseWheel delta =>
      { acc with wheel := satAddI32 acc.wheel delta }
    | .mouseButton button is_down =>
      if is_down then { acc with buttons := markButton acc.buttons button } else acc

/-- The whole event loop of `aggregate_window`. -/
def aggLoop (window_start window_end : Nat) :
    List InputEvent → AggAcc → AggAcc
  | [], acc => acc
  | ev :: rest, acc => aggLoop window_start window_end rest (aggStep window_start window_end acc ev)

/-- `aggregate_window` (src/aggregator/src/lib.rs:38-117).  The Rust
function mutates `state` through `&mut`; the model returns the snapshot
together with the new state. -/
def aggregate_window (events : List InputEvent)
    (window_start window_end : Nat) (step_index : StepIndex)
    (is_foreground : Bool) (cursor_provider : CursorProvider)
    (state : AggregatorState) : ActionSnapshot × AggregatorState :=
  let acc := aggLoop window_start window_end events
    { dx := 0, dy := 0, wheel := 0, pressed := [], released := [],
      buttons := {}, down := state.down_keys }
  let cursor := cursor_provider.sample
  if !is_foreground then
    ({ step_index := step_index
       qpc_ts := window_end
       window := { is_foreground := is_foreground }
       mouse := { dx := 0, dy := 0, wheel := 0, buttons := {}, cursor := cursor }
       keyboard := {} },
     { down_keys := acc.down })
  else
    ({ step_index := step_index
       qpc_ts := window_end
       window := { is_foreground := is_foreground }
       mouse := { dx := acc.dx, dy := acc.dy, wheel := acc.wheel,
                  buttons := acc.buttons, cursor := cursor }
       keyboard := { down := sortedVec acc.down, pressed := sortedVec acc.pressed,
                     released := sortedVec acc.released } },
     { down_keys := acc.down })

/- ## Compiled-action compiler (src/compiler/src/lib.rs) -/

/-- `BIN_COUNT` (src/compiler/src/lib.rs:5). -/
def BIN_COUNT : Nat := 6

/-- `DX_CLAMP` (src/compiler/src/lib.rs:6). -/
def DX_CLAMP : Int := 1000

/-- `WHEEL_CLAMP` (src/compiler/src/lib.rs:7). -/
def WHEEL_CLAMP : Int := 5

/-- `clamp` (src/compiler/src/lib.rs:121-129). -/
def clamp (value limit : Int) : Int :=
  if value > limit then limit
  else if value < -limit then -limit
  else value

/-- `mouse_button_name` (src/compiler/src/lib.rs:131-139, identical to
src/input/src/lib.rs:219-227). -/
def mouse_button_name : MouseButton → Str
  | .left => ("MouseLeft").data
  | .right => ("MouseRight").data
  | .middle => ("MouseMiddle").data
  | .x1 => ("MouseX1").data
  | .x2 => ("MouseX2").data

/-- `u8::saturating_add` (used in `key_rank` for the function-key index). -/
def u8SatAdd (a b : Nat) : Nat :=
  min (a + b) 255

/-- `Iterator::position` over a list of keys (`index_of`,
src/compiler/src/lib.rs:195-199). -/
def indexOfAux : List Str → Str → Nat → Option Nat
  | [], _, _ => none
  | x :: xs, key, i => if x = key then some i else indexOfAux xs key (i + 1)

/-- `index_of` (src/compiler/src/lib.rs:195-199). -/
def index_of (list : List Str) (key : Str) : Option Nat :=
  indexOfAux list key 0

/-- `MOUSE_KEYS` (src/compiler/src/lib.rs:152). -/
def MOUSE_KEYS : List Str :=
  [("MouseLeft").data, ("MouseRight").data, ("MouseMiddle").data]

/-- `MOD_KEYS` (src/compiler/src/lib.rs:153). -/
def MOD_KEYS : List Str :=
  [("Shift").data, ("Ctrl").data, ("Alt").data]

/-- `MOVE_KEYS` (src/compiler/src/lib.rs:154). -/
def MOVE_KEYS : List Str :=
  [("W").data, ("A").data, ("S").data, ("D").data]

/-- `NAV_KEYS` (src/compiler/src/lib.rs:155). -/
def NAV_KEYS : List Str :=
  [("Space").data, ("Esc").data, ("Tab").data, ("Enter").data]

/-- `NUM_KEYS` (src/compiler/src/lib.rs:156-158).  Note: the source array
starts at `"one"`; it does not contain `"zero"`. -/
def NUM_KEYS : List Str :=
  [("one").data, ("two").data, ("three").data, ("four").data, ("five").data,
   ("six").data, ("seven").data, ("eight").data, ("nine").data]

/-- `FUNC_KEYS` (src/compiler/src/lib.rs:159-172). -/
def FUNC_KEYS : List Str :=
  [("One").data, ("Two").data, ("Three").data, ("Four").data, ("Five").data,
   ("Six").data, ("Seven").data, ("Eight").data, ("Nine").data, ("Ten").data,
   ("Eleven").data, ("Twelve").data]

/-- `key_rank` (src/compiler/src/lib.rs:151-193). -/
def key_rank (key : Str) : Nat × Nat :=
  match index_of MOUSE_KEYS key with
  | some idx => (0, idx)
  | none =>
  match index_of MOD_KEYS key with
  | some idx => (1, idx)
  | none =>
  match index_of MOVE_KEYS key with
  | some idx => (2, idx)
  | none =>
  match index_of NAV_KEYS key with
  | some idx => (3, idx)
  | none =>
  match index_of NUM_KEYS key with
  | some idx => (4, idx)
  | none =>
  match index_of FUNC_KEYS key with
  | some idx => (4, u8SatAdd NUM_KEYS.length idx)
  | none => (5, 0)

/-- The total comparison `sort_keys` sorts by
(src/compiler/src/lib.rs:143-147): group rank, then index within the
group, then full lexicographic comparison of the key strings.  `keyLe a b`
is `compare(a, b) ≠ Greater`. -/
def keyLe (a b : Str) : Bool :=
  if (key_rank a).1 < (key_rank b).1 then true
  else if (key_rank b).1 < (key_rank a).1 then false
  else if (key_rank a).2 < (key_rank b).2 then true
  else if (key_rank b).2 < (key_rank a).2 then false
  else !strLt b a

/-- `sort_keys` (src/compiler/src/lib.rs:141-149): collect the key set
into a vector and sort it by `keyLe` (a total comparison, so the result
does not depend on the hash-set iteration order). -/
def sort_keys (keys : List Str) : List Str :=
  sortBy keyLe keys

/-- The accumulator of `compile_window`'s outer loop: the running motion
sums and the persistent `key_state.down` set (src/compiler/src/lib.rs:42-44
and the `KeyState` of src/compiler/src/lib.rs:9-12). -/
structure CompState where
  dx : Int
  dy : Int
  wheel : Int
  down : List Str
deriving Repr

/-- `CompState` together with the per-bin `bin_keys` set
(src/compiler/src/lib.rs:60). -/
structure BinAcc where
  dx : Int
  dy : Int
  wheel : Int
  down : List Str
  bin_keys : List Str
deriving Repr

/-- One iteration of the inner event loop of `compile_window`
(src/compiler/src/lib.rs:62-90). -/
def compStep (acc : BinAcc) (event : InputEvent) : BinAcc :=
  match event.kind with
  | .keyDown key =>
    { acc with down := setInsert acc.down key, bin_keys := setInsert acc.bin_keys key }
  | .keyUp key =>
    { acc with down := setRemove acc.down key }
  | .mouseMove edx edy =>
    { acc with dx := satAddI32 acc.dx edx, dy := satAddI32 acc.dy edy }
  | .mouseWheel delta =>
    { acc with wheel := satAddI32 acc.wheel delta }
  | .mouseButton button is_down =>
    let key := mouse_button_name button
    if is_down then
      { acc with down := setInsert acc.down key, bin_keys := setInsert acc.bin_keys key }
    else
      { acc with down := setRemove acc.down key }

/-- The inner `while event_index < events.len() && events[event_index].qpc_ts < bin_end`
loop of `compile_window` (src/compiler/src/lib.rs:62-90); returns the
unconsumed suffix of the event list. -/
def binLoop (bin_end : Nat) :
    List InputEvent → BinAcc → List InputEvent × BinAcc
  | [], acc => ([], acc)
  | ev :: rest, acc =>
    if ev.qpc_ts < bin_end then binLoop bin_end rest (compStep acc ev)
    else (ev :: rest, acc)

/-- The outer `for bin_idx in 0..BIN_COUNT` loop of `compile_window`
(src/compiler/src/lib.rs:53-98), counting down the bins that remain; the
last bin (`n = 0`) absorbs the remainder. -/
def binsLoop : Nat → QpcTimestamp → Nat → Nat → List InputEvent → CompState →
    List (List Str) × CompState
  | 0, _, _, _, _, st => ([], st)
  | n + 1, bin_start, base, remainder, events, st =>
    let bin_end := if n = 0 then u64SatAdd bin_start (base + remainder)
                   else u64SatAdd bin_start base
    let step := binLoop bin_end events
      { dx := st.dx, dy := st.dy, wheel := st.wheel, down := st.down, bin_keys := st.down }
    let acc := step.2
    let ordered := (sort_keys acc.bin_keys).take 4
    let tail := binsLoop n bin_end base remainder step.1
      { dx := acc.dx, dy := acc.dy, wheel := acc.wheel, down := acc.down }
    (ordered :: tail.1, tail.2)

/-- The result of `compile_window` (src/compiler/src/lib.rs:32-106)
together with the final `key_state.down` the Rust function leaves in the
`&mut KeyState` argument. -/
structure CompiledWindow where
  dx : Int
  dy : Int
  wheel : Int
  bins : List (List Str)
  key_state : List Str
deriving Repr

/-- `compile_window` (src/compiler/src/lib.rs:32-106). -/
def compile_window (events : List InputEvent)
    (window_start window_end : Nat) (key_state : List Str) :
    CompiledWindow :=
  let duration := window_end - window_start
  let base := duration / BIN_COUNT
  let remainder := duration - base * BIN_COUNT
  let events1 := events.dropWhile (fun ev => ev.qpc_ts < window_start)
  let r := binsLoop BIN_COUNT window_start base remainder events1
    { dx := 0, dy := 0, wheel := 0, down := key_state }
  { dx := clamp r.2.dx DX_CLAMP
    dy := clamp r.2.dy DX_CLAMP
    wheel := clamp r.2.wheel WHEEL_CLAMP
    bins := r.1
    key_state := r.2.down }

/-- `Char` for a decimal digit `n < 10`. -/
def digitChar (n : Nat) : Char :=
  Char.ofNat (48 + n)

/-- Decimal digits of a natural number, most significant first, computed
with explicit fuel so that the definition reduces by `decide`/`rfl`. -/
def natDigitsAux : Nat → Nat → Str
  | 0, _ => []
  | fuel + 1, n =>
    if n < 10 then [digitChar n]
    else natDigitsAux fuel (n / 10) ++ [digitChar (n % 10)]

/-- Decimal representation of a `Nat` (models Rust `Display` for
unsigned integers). -/
def natDigits (n : Nat) : Str :=
  natDigitsAux (n + 1) n

/-- Decimal representation of an `Int` (models Rust `Display` for `i32`,
as used by `format!` in `format_action_string`). -/
def intToStr (n : Int) : Str :=
  if n < 0 then '-' :: natDigits n.natAbs else natDigits n.toNat

/-- The sentinel `<|action_start|>`. -/
def actionStart : Str := ("<|action_start|>").data

/-- The sentinel `<|action_end|>`. -/
def actionEnd : Str := ("<|action_end|>").data

/-- `Vec::join(" ")` on a list of keys. -/
def joinSp : List Str → Str
  | [] => []
  | [k] => k
  | k :: rest => k ++ ' ' :: joinSp rest

/-- The bin part of `format_action_string` (src/compiler/src/lib.rs:110-116):
for each bin push `" ;"`, then, when the bin is nonempty, a space and the
space-joined keys. -/
def joinBins : List (List Str) → Str
  | [] => []
  | bin :: rest =>
    (' ' :: ';' :: (if bin.isEmpty then [] else ' ' :: joinSp bin)) ++ joinBins rest

/-- `format_action_string` (src/compiler/src/lib.rs:108-119). -/
def format_action_string (dx dy wheel : Int) (bins : List (List Str)) : Str :=
  actionStart ++ (intToStr dx ++ (' ' :: (intToStr dy ++ (' ' :: (intToStr wheel
    ++ (joinBins (bins.take BIN_COUNT) ++ actionEnd))))))

/-- `compile_action_string` (src/compiler/src/lib.rs:22-30). -/
def compile_action_string (events : List InputEvent)
    (window_start window_end : Nat) (key_state : List Str) : Str :=
  let cw := compile_window events window_start window_end key_state
  format_action_string cw.dx cw.dy cw.wheel cw.bins

/- ## Session writer finalize (src/writer/src/lib.rs) -/

/-- Outcomes of the fallible I/O steps `SessionWriter::finalize` performs,
in program order (src/writer/src/lib.rs:225-249 and
`FfmpegWriter::finish`, src/writer/src/lib.rs:109-121).  Each flag is
`true` when the corresponding operation returns `Ok` (respectively, when
the encoder exits with a success status). -/
structure FinalizeEnv where
  flush_actions_ok : Bool
  flush_compiled_ok : Bool
  flush_thoughts_ok : Bool
  flush_auto_events_ok : Bool
  ffmpeg_flush_ok : Bool
  ffmpeg_wait_ok : Bool
  ffmpeg_exit_success : Bool
  rename_ok : Bool
deriving Repr

/-- The directory-existence state `finalize` can observe and change: the
temp directory `<name>.tmp/` and the final directory `<name>/`
(`SessionLayout`, src/writer/src/lib.rs:11-39).  Flushing logs and waiting
for the encoder write file *contents* but never create or remove either
directory; the only directory mutation in `finalize` is the
`fs::rename(&layout.temp_dir, &layout.root_dir)`, which the OS performs
atomically: on success the temp directory becomes the final directory, on
failure nothing changes. -/
structure FsState where
  temp_exists : Bool
  root_exists : Bool
deriving DecidableEq, Repr

/-- `FfmpegWriter::finish` (src/writer/src/lib.rs:109-121): flush and
close the encoder's stdin, wait for the child, and fail unless it exited
successfully.  Returns `true` iff `finish()` returns `Ok`. -/
def ffmpegFinish (env : FinalizeEnv) : Bool :=
  env.ffmpeg_flush_ok && env.ffmpeg_wait_ok && env.ffmpeg_exit_success

/-- `SessionWriter::finalize` (src/writer/src/lib.rs:225-249): flush the
four logs, finish the encoder, fail if the final directory appeared, then
rename the temp directory onto the final name.  Returns the resulting
directory state and `true` iff `finalize` returned `Ok`.  Every `?`
early-return leaves the directory state unchanged. -/
def finalize (env : FinalizeEnv) (fs : FsState) : FsState × Bool :=
  if !env.flush_actions_ok then (fs, false)
  else if !env.flush_compiled_ok then (fs, false)
  else if !env.flush_thoughts_ok then (fs, false)
  else if !env.flush_auto_events_ok then (fs, false)
  else if !ffmpegFinish env then (fs, false)
  else if fs.root_exists then (fs, false)
  else if env.rename_ok && fs.temp_exists then
    ({ temp_exists := false, root_exists := true }, true)
  else (fs, false)

/- ## Spec-side definitions -/

/-- A character allowed inside a key token of the compiled-action format:
the regex character class `[^ ;<]` of spec property P5. -/
def keyChar (c : Char) : Bool :=
  c ≠ ' ' && c ≠ ';' && c ≠ '<'

/-- Decimal digit test, the regex class `\d`. -/
def isDigitCh (c : Char) : Bool :=
  '0' ≤ c && c ≤ '9'

/-- Consume a literal from the front of a string, or fail
(the regex building block for literal text). -/
def dropLit : Str → Str → Option Str
  | [], s => some s
  | _ :: _, [] => none
  | c :: cs, x :: xs => if x = c then dropLit cs xs else none

/-- Consume `-?\d+` from the front of a string, or fail.  Greedy digit
consumption is complete here because in the surrounding format the
character after the integer is a space. -/
def parseIntTok (s : Str) : Option Str :=
  if (((if s.head? = some ('-') then s.tail else s).takeWhile isDigitCh).isEmpty) then none
  else some ((if s.head? = some ('-') then s.tail else s).dropWhile isDigitCh)

/-- Consume `( [^ ;<]+)*` from the front of a string: repeatedly a space
followed by a nonempty run of key characters.  Greedy maximal-munch is
complete because a key character is never a space, `;` or `<`, so a
successful parse of the rest of the format can never need a shorter
match.  Fuel-structured so the definition reduces by `decide`. -/
def parseKeysAux : Nat → Str → Str
  | 0, s => s
  | fuel + 1, s =>
    match s with
    | c1 :: c2 :: rest =>
      if c1 = ' ' then
        if keyChar c2 then parseKeysAux fuel (rest.dropWhile keyChar) else s
      else s
    | _ => s

/-- Entry point of `parseKeysAux` with enough fuel. -/
def parseKeys (s : Str) : Str :=
  parseKeysAux s.length s

/-- Consume one regex group ` ;( [^ ;<]+)*`. -/
def parseBinGroup (s : Str) : Option Str :=
  (dropLit [' ', ';'] s).map parseKeys

/-- Iterate `parseBinGroup` `n` times. -/
def parseBinGroups : Nat → Str → Option Str
  | 0, s => some s
  | n + 1, s => (parseBinGroup s).bind (parseBinGroups n)

/-- Acceptor for the spec regex
`^<\|action_start\|>-?\d+ -?\d+ -?\d+( ;( [^ ;<]+)*){6}<\|action_end\|>$`
(spec property P5).  Every consumption step is an instance of the
corresponding regex piece, so acceptance implies the regex matches; and
because the token classes (digits, key characters) are disjoint from the
separators that follow them, the deterministic maximal-munch strategy is
also complete, so rejection implies the regex cannot match. -/
def matchesActionRegex (s : Str) : Bool :=
  (((((dropLit actionStart s).bind parseIntTok).bind (dropLit [' '])).bind
      parseIntTok).bind (dropLit [' '])).bind parseIntTok
    |>.bind (parseBinGroups 6)
    |>.bind (dropLit actionEnd)
    |>.map List.isEmpty
    |>.getD false

/-- Modelled from the spec (claim C8's wording): the claimed canonical
key ranking, identical to `key_rank` except that the numeric group is
claimed to contain the digit names `zero..nine` (ten entries) before the
function-key names `One..Twelve`. -/
def spec_key_rank (key : Str) : Nat × Nat :=
  match index_of MOUSE_KEYS key with
  | some idx => (0, idx)
  | none =>
  match index_of MOD_KEYS key with
  | some idx => (1, idx)
  | none =>
  match index_of MOVE_KEYS key with
  | some idx => (2, idx)
  | none =>
  match index_of NAV_KEYS key with
  | some idx => (3, idx)
  | none =>
  match index_of (("zero").data :: NUM_KEYS) key with
  | some idx => (4, idx)
  | none =>
  match index_of FUNC_KEYS key with
  | some idx => (4, u8SatAdd (("zero").data :: NUM_KEYS).length idx)
  | none => (5, 0)

/-- Modelled from the spec (claim C8's wording): comparison by
`spec_key_rank`, ties broken lexicographically. -/
def specKeyLe (a b : Str) : Bool :=
  if (spec_key_rank a).1 < (spec_key_rank b).1 then true
  else if (spec_key_rank b).1 < (spec_key_rank a).1 then false
  else if (spec_key_rank a).2 < (spec_key_rank b).2 then true
  else if (spec_key_rank b).2 < (spec_key_rank a).2 then false
  else !strLt b a

/-- Modelled from the spec (claim C8's wording): sorting a key set by the
claimed canonical ordering. -/
def spec_sort_keys (keys : List Str) : List Str :=
  sortBy specKeyLe keys

/-- Modelled from the amended claim C8 wording: the canonical ranking
with the numeric group containing the digit names `one..nine` followed by
the function-key names `One..Twelve`; `zero`, like every name not listed,
falls in the final group.  (Written out independently of `key_rank` so
the implementation can be compared against it.) -/
def claim_key_rank (key : Str) : Nat × Nat :=
  match index_of [("MouseLeft").data, ("MouseRight").data, ("MouseMiddle").data] key with
  | some idx => (0, idx)
  | none =>
  match index_of [("Shift").data, ("Ctrl").data, ("Alt").data] key with
  | some idx => (1, idx)
  | none =>
  match index_of [("W").data, ("A").data, ("S").data, ("D").data] key with
  | some idx => (2, idx)
  | none =>
  match index_of [("Space").data, ("Esc").data, ("Tab").data, ("Enter").data] key with
  | some idx => (3, idx)
  | none =>
  match index_of [("one").data, ("two").data, ("three").data, ("four").data,
      ("five").data, ("six").data, ("seven").data, ("eight").data, ("nine").data] key with
  | some idx => (4, idx)
  | none =>
  match index_of [("One").data, ("Two").data, ("Three").data, ("Four").data,
      ("Five").data, ("Six").data, ("Seven").data, ("Eight").data, ("Nine").data,
      ("Ten").data, ("Eleven").data, ("Twelve").data] key with
  | some idx => (4, u8SatAdd 9 idx)
  | none => (5, 0)

/-- Modelled from the amended claim C8 wording: comparison by
`claim_key_rank`, ties broken lexicographically. -/
def claimKeyLe (a b : Str) : Bool :=
  if (claim_key_rank a).1 < (claim_key_rank b).1 then true
  else if (claim_key_rank b).1 < (claim_key_rank a).1 then false
  else if (claim_key_rank a).2 < (claim_key_rank b).2 then true
  else if (claim_key_rank b).2 < (claim_key_rank a).2 then false
  else !strLt b a

/- ## Derived definitions used by the claim statements -/

/-- The event stream is tick-ordered: timestamps are non-decreasing along
the list (spec §3, "events emitted by InputCollector are tick-ordered"). -/
abbrev TickOrdered (l : List InputEvent) : Prop :=
  l.Pairwise (fun a b => a.qpc_ts ≤ b.qpc_ts)

/-- `n` consecutive `drain_events` calls over the half-open windows
`[k*D, (k+1)*D), [(k+1)*D, (k+2)*D), ...`, collecting the returned lists. -/
def drainWindows (c : RawInputCollector) (D : Nat) :
    Nat → Nat → List (List InputEvent) × RawInputCollector
  | _, 0 => ([], c)
  | k, n + 1 =>
    ((c.drain_events [] (k * D) ((k + 1) * D)).1 ::
        (drainWindows (c.drain_events [] (k * D) ((k + 1) * D)).2 D (k + 1) n).1,
     (drainWindows (c.drain_events [] (k * D) ((k + 1) * D)).2 D (k + 1) n).2)

/-- An event is inside the half-open window `[ws, we)`. -/
abbrev inWindow (ws we : Nat) (e : InputEvent) : Prop :=
  ws ≤ e.qpc_ts ∧ e.qpc_ts < we

/-- A key name acceptable to the compiled-action wire format: nonempty
and made of characters other than space, `;` and `<`. -/
abbrev GoodKey (k : Str) : Prop :=
  k ≠ [] ∧ ∀ c ∈ k, keyChar c = true

/-- All key names carried by an event are `GoodKey`. -/
abbrev GoodEvent (e : InputEvent) : Prop :=
  match e.kind with
  | .keyDown key => GoodKey key
  | .keyUp key => GoodKey key
  | _ => True

/-- The text a bin contributes after its `" ;"` separator in
`format_action_string`: nothing when empty, else a space and the
space-joined keys. -/
def binBody (bin : List Str) : Str :=
  if bin.isEmpty then [] else ' ' :: joinSp bin

/-- Number of `;` characters in a string. -/
def countSemi (s : Str) : Nat :=
  s.count ';'

/- ## Basic lemmas about the set and sorting helpers -/

theorem mem_setInsert {l : List Str} {k a : Str} :
    a ∈ setInsert l k ↔ a ∈ l ∨ a = k := by
  unfold setInsert
  split
  · constructor
    · exact Or.inl
    · rintro (h | rfl) <;> assumption
  · simp [List.mem_append]

theorem mem_setRemove {l : List Str} {k a : Str} :
    a ∈ setRemove l k ↔ a ∈ l ∧ a ≠ k := by
  simp [setRemove]

theorem perm_insertSorted (le : Str → Str → Bool) (k : Str) :
    ∀ l : List Str, List.Perm (insertSorted le k l) (k :: l) := by
  intro l
  induction l with
  | nil => simp [insertSorted]
  | cons x xs ih =>
    unfold insertSorted
    split
    · exact List.Perm.refl _
    · exact List.Perm.trans (List.Perm.cons x ih) (List.Perm.swap k x xs)

theorem perm_sortBy (le : Str → Str → Bool) :
    ∀ l : List Str, List.Perm (sortBy le l) l := by
  intro l
  induction l with
  | nil => simp [sortBy]
  | cons x xs ih =>
    exact List.Perm.trans (perm_insertSorted le x (sortBy le xs)) (List.Perm.cons x ih)

theorem mem_sortBy {le : Str → Str → Bool} {l : List Str} {a : Str} :
    a ∈ sortBy le l ↔ a ∈ l :=
  (perm_sortBy le l).mem_iff

theorem mem_sortedVec {l : List Str} {a : Str} :
    a ∈ sortedVec l ↔ a ∈ l :=
  mem_sortBy

theorem pairwise_insertSorted (le : Str → Str → Bool)
    (htrans : ∀ a b c, le a b = true → le b c = true → le a c = true)
    (htot : ∀ a b, le a b = true ∨ le b a = true) (k : Str) :
    ∀ l : List Str, l.Pairwise (fun a b => le a b = true) →
      (insertSorted le k l).Pairwise (fun a b => le a b = true) := by
  intro l
  induction l with
  | nil => intro _; simp [insertSorted]
  | cons x xs ih =>
    intro h
    rw [List.pairwise_cons] at h
    obtain ⟨hx, hxs⟩ := h
    unfold insertSorted
    split
    · rename _ => hkx
      rw [List.pairwise_cons]
      refine ⟨?_, List.pairwise_cons.mpr ⟨hx, hxs⟩⟩
      intro y hy
      rcases List.mem_cons.mp hy with rfl | hy'
      · exact hkx
      · exact htrans _ _ _ hkx (hx y hy')
    · rename _ => hkx
      rw [List.pairwise_cons]
      refine ⟨?_, ih hxs⟩
      intro y hy
      rcases List.mem_cons.mp ((perm_insertSorted le k xs).mem_iff.mp hy) with rfl | h'
      · rcases htot x y with h'' | h''
        · exact h''
        · exact absurd h'' hkx
      · exact hx y h'

theorem pairwise_sortBy (le : Str → Str → Bool)
    (htrans : ∀ a b c, le a b = true → le b c = true → le a c = true)
    (htot : ∀ a b, le a b = true ∨ le b a = true) :
    ∀ l : List Str, (sortBy le l).Pairwise (fun a b => le a b = true) := by
  intro l
  induction l with
  | nil => simp [sortBy]
  | cons x xs ih => exact pairwise_insertSorted le htrans htot x _ ih

/- ## Lemmas about the aggregator event loop -/

theorem aggLoop_append (ws we : Nat) :
    ∀ (l1 l2 : List InputEvent) (acc : AggAcc),
      aggLoop ws we (l1 ++ l2) acc = aggLoop ws we l2 (aggLoop ws we l1 acc) := by
  intro l1
  induction l1 with
  | nil => intro l2 acc; rfl
  | cons a l ih =>
    intro l2 acc
    rw [List.cons_append, aggLoop, aggLoop, ih]

theorem aggStep_down_preserved {K : Str} {ws we : Nat} {acc : AggAcc}
    {e : InputEvent} (hK : K ∈ acc.down)
    (hne : inWindow ws we e → e.kind ≠ .keyUp K) :
    K ∈ (aggStep ws we acc e).down := by
  rw [aggStep]
  by_cases hin : e.qpc_ts < ws ∨ we ≤ e.qpc_ts
  · rw [if_pos hin]; exact hK
  · rw [if_neg hin]
    have hwin : inWindow ws we e := by
      constructor <;> omega
    match he : e.kind with
    | .keyDown k => exact mem_setInsert.mpr (Or.inl hK)
    | .keyUp k =>
      refine mem_setRemove.mpr ⟨hK, ?_⟩
      intro hKk
      exact hne hwin (by rw [he, hKk])
    | .mouseMove edx edy => exact hK
    | .mouseWheel delta => exact hK
    | .mouseButton button is_down =>
      dsimp only
      split <;> exact hK

theorem aggLoop_down_preserved {K : Str} {ws we : Nat} :
    ∀ (evs : List InputEvent) (acc : AggAcc), K ∈ acc.down →
      (∀ e ∈ evs, inWindow ws we e → e.kind ≠ .keyUp K) →
      K ∈ (aggLoop ws we evs acc).down := by
  intro evs
  induction evs with
  | nil => intro acc hK _; exact hK
  | cons a l ih =>
    intro acc hK hne
    rw [aggLoop]
    exact ih _ (aggStep_down_preserved hK (hne a (List.mem_cons_self a l)))
      (fun e he => hne e (List.mem_cons_of_mem a he))

theorem aggStep_down_absent {K : Str} {ws we : Nat} {acc : AggAcc}
    {e : InputEvent} (hK : K ∉ acc.down)
    (hne : inWindow ws we e → e.kind ≠ .keyDown K) :
    K ∉ (aggStep ws we acc e).down := by
  rw [aggStep]
  by_cases hin : e.qpc_ts < ws ∨ we ≤ e.qpc_ts
  · rw [if_pos hin]; exact hK
  · rw [if_neg hin]
    have hwin : inWindow ws we e := by
      constructor <;> omega
    match he : e.kind with
    | .keyDown k =>
      intro hmem
      rcases mem_setInsert.mp hmem with h | h
      · exact hK h
      · exact hne hwin (by rw [he, h])
    | .keyUp k =>
      intro hmem
      exact hK (mem_setRemove.mp hmem).1
    | .mouseMove edx edy => exact hK
    | .mouseWheel delta => exact hK
    | .mouseButton button is_down =>
      dsimp only
      split <;> exact hK

theorem aggLoop_down_absent {K : Str} {ws we : Nat} :
    ∀ (evs : List InputEvent) (acc : AggAcc), K ∉ acc.down →
      (∀ e ∈ evs, inWindow ws we e → e.kind ≠ .keyDown K) →
      K ∉ (aggLoop ws we evs acc).down := by
  intro evs
  induction evs with
  | nil => intro acc hK _; exact hK
  | cons a l ih =>
    intro acc hK hne
    rw [aggLoop]
    exact ih _ (aggStep_down_absent hK (hne a (List.mem_cons_self a l)))
      (fun e he => hne e (List.mem_cons_of_mem a he))

theorem aggStep_released_mono {K : Str} {ws we : Nat} {acc : AggAcc}
    {e : InputEvent} (hK : K ∈ acc.released) :
    K ∈ (aggStep ws we acc e).released := by
  rw [aggStep]
  split
  · exact hK
  · match e.kind with
    | .keyDown k => exact hK
    | .keyUp k => exact mem_setInsert.mpr (Or.inl hK)
    | .mouseMove edx edy => exact hK
    | .mouseWheel delta => exact hK
    | .mouseButton button is_down =>
      dsimp only
      split <;> exact hK

theorem aggLoop_released_mono {K : Str} (ws we : Nat) :
    ∀ (evs : List InputEvent) (acc : AggAcc), K ∈ acc.released →
      K ∈ (aggLoop ws we evs acc).released := by
  intro evs
  induction evs with
  | nil => intro acc hK; exact hK
  | cons a l ih =>
    intro acc hK
    rw [aggLoop]
    exact ih _ (aggStep_released_mono hK)

/- ## Claim C9: held keys persist across windows -/

/-- Claim C9: held keys persist across windows.  For foreground windows
processed with the shared `AggregatorState`: (i) a key already held and
not released in this window stays in the snapshot's `down` list and in the
state; (ii) a KeyDown K in the window with no later in-window KeyUp K
leaves K in `down` and in the state; (iii) an in-window KeyUp K with no
later in-window KeyDown K puts K in `released` and removes it from the
state and from `down`; (iv) a key not held and not pressed stays absent.
Chaining (ii), (i) and then (iii), (iv) over a window sequence gives the
claimed lifecycle. -/
theorem held_keys_persistence (K : Str) (evs : List InputEvent)
    (ws we : Nat) (si : StepIndex) (cp : CursorProvider)
    (st : AggregatorState) :
    (K ∈ st.down_keys →
      (∀ e ∈ evs, inWindow ws we e → e.kind ≠ .keyUp K) →
      K ∈ (aggregate_window evs ws we si true cp st).1.keyboard.down ∧
      K ∈ (aggregate_window evs ws we si true cp st).2.down_keys) ∧
    (∀ (l1 : List InputEvent) (t : Nat) (l2 : List InputEvent),
      evs = l1 ++ ⟨t, .keyDown K⟩ :: l2 → ws ≤ t → t < we →
      (∀ e ∈ l2, inWindow ws we e → e.kind ≠ .keyUp K) →
      K ∈ (aggregate_window evs ws we si true cp st).1.keyboard.down ∧
      K ∈ (aggregate_window evs ws we si true cp st).2.down_keys) ∧
    (∀ (l1 : List InputEvent) (t : Nat) (l2 : List InputEvent),
      evs = l1 ++ ⟨t, .keyUp K⟩ :: l2 → ws ≤ t → t < we →
      (∀ e ∈ l2, inWindow ws we e → e.kind ≠ .keyDown K) →
      K ∈ (aggregate_window evs ws we si true cp st).1.keyboard.released ∧
      K ∉ (aggregate_window evs ws we si true cp st).1.keyboard.down ∧
      K ∉ (aggregate_window evs ws we si true cp st).2.down_keys) ∧
    (K ∉ st.down_keys →
      (∀ e ∈ evs, inWindow ws we e → e.kind ≠ .keyDown K) →
      K ∉ (aggregate_window evs ws we si true cp st).1.keyboard.down ∧
      K ∉ (aggregate_window evs ws we si true cp st).2.down_keys) := by
  have hdown : (aggregate_window evs ws we si true cp st).1.keyboard.down
      = sortedVec (aggLoop ws we evs
          ⟨0, 0, 0, [], [], {}, st.down_keys⟩).down := rfl
  have hrel : (aggregate_window evs ws we si true cp st).1.keyboard.released
      = sortedVec (aggLoop ws we evs
          ⟨0, 0, 0, [], [], {}, st.down_keys⟩).released := rfl
  have hst : (aggregate_window evs ws we si true cp st).2.down_keys
      = (aggLoop ws we evs ⟨0, 0, 0, [], [], {}, st.down_keys⟩).down := rfl
  refine ⟨?_, ?_, ?_, ?_⟩
  · intro hK hne
    have h := aggLoop_down_preserved evs ⟨0, 0, 0, [], [], {}, st.down_keys⟩ hK hne
    exact ⟨by rw [hdown]; exact mem_sortedVec.mpr h, by rw [hst]; exact h⟩
  · intro l1 t l2 hsplit hts htw hne
    subst hsplit
    rw [hdown, hst, aggLoop_append, aggLoop]
    have hin : K ∈ (aggStep ws we (aggLoop ws we l1
        ⟨0, 0, 0, [], [], {}, st.down_keys⟩) ⟨t, .keyDown K⟩).down := by
      rw [aggStep]
      rw [if_neg (by simp; omega)]
      exact mem_setInsert.mpr (Or.inr rfl)
    have h := aggLoop_down_preserved l2 _ hin hne
    exact ⟨mem_sortedVec.mpr h, h⟩
  · intro l1 t l2 hsplit hts htw hne
    subst hsplit
    rw [hdown, hrel, hst, aggLoop_append, aggLoop]
    have hinr : K ∈ (aggStep ws we (aggLoop ws we l1
        ⟨0, 0, 0, [], [], {}, st.down_keys⟩) ⟨t, .keyUp K⟩).released := by
      rw [aggStep]
      rw [if_neg (by simp; omega)]
      exact mem_setInsert.mpr (Or.inr rfl)
    have hout : K ∉ (aggStep ws we (aggLoop ws we l1
        ⟨0, 0, 0, [], [], {}, st.down_keys⟩) ⟨t, .keyUp K⟩).down := by
      rw [aggStep]
      rw [if_neg (by simp; omega)]
      intro hmem
      exact (mem_setRemove.mp hmem).2 rfl
    have hr := aggLoop_released_mono ws we l2 _ hinr
    have hd := aggLoop_down_absent l2 _ hout hne
    exact ⟨mem_sortedVec.mpr hr, fun h => hd (mem_sortedVec.mp h), hd⟩
  · intro hK hne
    have h := aggLoop_down_absent evs ⟨0, 0, 0, [], [], {}, st.down_keys⟩ hK hne
    exact ⟨by rw [hdown]; intro hmem; exact h (mem_sortedVec.mp hmem),
           by rw [hst]; exact h⟩

/-- Witness for claim C9's theorem at a concrete input: a window `[0,200)`
containing `KeyDown "W"` at tick 10 leaves `"W"` in the snapshot's `down`
list and in the persisted state. -/
theorem held_keys_persistence_witness :
    (("W").data ∈ (aggregate_window [⟨10, .keyDown (("W").data)⟩] 0 200 0 true
        ⟨true, 0, 0⟩ ⟨[]⟩).1.keyboard.down) ∧
    (("W").data ∈ (aggregate_window [⟨10, .keyDown (("W").data)⟩] 0 200 0 true
        ⟨true, 0, 0⟩ ⟨[]⟩).2.down_keys) := by
  have h := (held_keys_persistence (("W").data) [⟨10, .keyDown (("W").data)⟩]
    0 200 0 ⟨true, 0, 0⟩ ⟨[]⟩).2.1 [] 10 []
    rfl (by decide) (by decide) (by intro e he; cases he)
  exact h

/- ## Lemmas about the lexicographic string order -/

theorem strLt_self (a : Str) : strLt a a = false := by
  induction a with
  | nil => rfl
  | cons c cs ih => simp [strLt, ih]

theorem strLt_asymm : ∀ {a b : Str}, strLt a b = true → strLt b a = false := by
  intro a
  induction a with
  | nil =>
    intro b h
    cases b with
    | nil => simp [strLt] at h
    | cons c cs => rfl
  | cons c cs ih =>
    intro b h
    cases b with
    | nil => simp [strLt] at h
    | cons d ds =>
      unfold strLt at h ⊢
      rcases lt_trichotomy c d with hcd | hcd | hcd
      · simp [hcd, not_lt_of_lt hcd, ne_of_gt hcd]
      · subst hcd
        simp [lt_irrefl] at h ⊢
        exact ih h
      · simp [hcd, not_lt_of_lt hcd] at h

theorem strLt_connect : ∀ {a b : Str}, strLt a b = false → strLt b a = false → a = b := by
  intro a
  induction a with
  | nil =>
    intro b h _
    cases b with
    | nil => rfl
    | cons d ds => simp [strLt] at h
  | cons c cs ih =>
    intro b h h'
    cases b with
    | nil => simp [strLt] at h'
    | cons d ds =>
      unfold strLt at h h'
      rcases lt_trichotomy c d with hcd | hcd | hcd
      · simp [hcd] at h
      · subst hcd
        simp [lt_irrefl] at h h'
        rw [ih h h']
      · simp [hcd] at h'

theorem strLt_trans : ∀ {a b c : Str},
    strLt a b = true → strLt b c = true → strLt a c = true := by
  intro a
  induction a with
  | nil =>
    intro b c h h'
    cases b with
    | nil => simp [strLt] at h
    | cons d ds =>
      cases c with
      | nil => simp [strLt] at h'
      | cons e es => rfl
  | cons x xs ih =>
    intro b c h h'
    cases b with
    | nil => simp [strLt] at h
    | cons d ds =>
      cases c with
      | nil => simp [strLt] at h'
      | cons e es =>
        unfold strLt at h h' ⊢
        rcases lt_trichotomy x d with hxd | hxd | hxd
        · rcases lt_trichotomy d e with hde | hde | hde
          · simp [lt_trans hxd hde]
          · subst hde; simp [hxd]
          · simp [hde, not_lt_of_lt hde] at h'
        · subst hxd
          rcases lt_trichotomy x e with hxe | hxe | hxe
          · simp [hxe]
          · subst hxe
            simp [lt_irrefl] at h h' ⊢
            exact ih h h'
          · simp [hxe, not_lt_of_lt hxe] at h'
        · simp [hxd, not_lt_of_lt hxd] at h

/- ## Lemmas about `dropWhile` / `takeWhile` on tick-ordered lists -/

theorem dropWhile_eq_self_of_all {α : Type} (p : α → Bool) :
    ∀ l : List α, (∀ x ∈ l, p x = false) → l.dropWhile p = l := by
  intro l
  induction l with
  | nil => intro _; rfl
  | cons a l ih =>
    intro h
    rw [List.dropWhile_cons, h a (List.mem_cons_self a l)]
    simp

theorem takeWhile_lt_eq_filter (t : Nat) :
    ∀ l : List InputEvent, TickOrdered l →
      l.takeWhile (fun e => e.qpc_ts < t) = l.filter (fun e => e.qpc_ts < t) := by
  intro l
  induction l with
  | nil => intro _; rfl
  | cons a l ih =>
    intro h
    rw [TickOrdered, List.pairwise_cons] at h
    obtain ⟨ha, hl⟩ := h
    by_cases hat : a.qpc_ts < t
    · simp [List.takeWhile_cons, List.filter_cons, hat, ih hl]
    · simp [List.takeWhile_cons, List.filter_cons, hat]
      intro x hx
      have hax : a.qpc_ts ≤ x.qpc_ts := ha x hx
      omega

theorem dropWhile_lt_eq_filter (t : Nat) :
    ∀ l : List InputEvent, TickOrdered l →
      l.dropWhile (fun e => e.qpc_ts < t) = l.filter (fun e => t ≤ e.qpc_ts) := by
  intro l
  induction l with
  | nil => intro _; rfl
  | cons a l ih =>
    intro h
    rw [TickOrdered, List.pairwise_cons] at h
    obtain ⟨ha, hl⟩ := h
    by_cases hat : a.qpc_ts < t
    · have hat' : ¬ t ≤ a.qpc_ts := Nat.not_le_of_lt hat
      simp [List.dropWhile_cons, List.filter_cons, hat, hat', ih hl]
    · have hat' : t ≤ a.qpc_ts := Nat.le_of_not_lt hat
      simp [List.dropWhile_cons, List.filter_cons, hat, hat']
      rw [eq_comm, List.filter_eq_self]
      intro x hx
      have hax : a.qpc_ts ≤ x.qpc_ts := ha x hx
      simp only [decide_eq_true_eq]
      omega

/- ## Lemmas about `enforce_limit` and `drain_events` -/

theorem enforce_limit_of_le (c : RawInputCollector)
    (h : c.buffer.length ≤ c.max_events) : c.enforce_limit = c := by
  rw [RawInputCollector.enforce_limit, if_pos h]

theorem enforce_limit_buffer_length (c : RawInputCollector) :
    c.enforce_limit.buffer.length ≤ c.max_events := by
  rw [RawInputCollector.enforce_limit]
  split
  · assumption
  · simp only [List.length_drop]
    omega

theorem enforce_limit_max_events (c : RawInputCollector) :
    c.enforce_limit.max_events = c.max_events := by
  rw [RawInputCollector.enforce_limit]
  split <;> rfl

/-- Characterization of `drain_events` on a tick-ordered buffer with no
capacity overflow and nothing pending: the returned list is exactly the
in-window events, the remaining buffer the post-window events, and the
drop counter is untouched. -/
theorem drain_events_no_overflow (evs : List InputEvent) (N d : Nat)
    (s e : Nat) (hs : TickOrdered evs) (hlen : evs.length ≤ N) :
    RawInputCollector.drain_events ⟨evs, N, d⟩ [] s e =
      ((evs.filter (fun ev => s ≤ ev.qpc_ts)).filter (fun ev => ev.qpc_ts < e),
       ⟨(evs.filter (fun ev => s ≤ ev.qpc_ts)).filter (fun ev => e ≤ ev.qpc_ts), N, d⟩) := by
  rw [RawInputCollector.drain_events]
  have h0 : (⟨evs ++ [], N, d⟩ : RawInputCollector) = ⟨evs, N, d⟩ := by
    rw [List.append_nil]
  rw [h0, enforce_limit_of_le ⟨evs, N, d⟩ hlen]
  have hdrop : evs.dropWhile (fun ev => ev.qpc_ts < s)
      = evs.filter (fun ev => s ≤ ev.qpc_ts) := dropWhile_lt_eq_filter s evs hs
  have hsorted1 : TickOrdered (evs.filter (fun ev => s ≤ ev.qpc_ts)) :=
    List.Pairwise.sublist (List.filter_sublist evs) hs
  have hlen1 : (evs.filter (fun ev => s ≤ ev.qpc_ts)).length ≤ N :=
    le_trans (List.length_filter_le _ evs) hlen
  rw [hdrop, enforce_limit_of_le ⟨evs.filter (fun ev => s ≤ ev.qpc_ts), N, d⟩ hlen1]
  rw [takeWhile_lt_eq_filter e _ hsorted1, dropWhile_lt_eq_filter e _ hsorted1]

/- ## Claim C2: half-open windowing and window-union coverage -/

theorem drainWindows_join (D : Nat) :
    ∀ (n k0 : Nat) (evs : List InputEvent) (N d : Nat),
      TickOrdered evs → evs.length ≤ N →
      (∀ ev ∈ evs, k0 * D ≤ ev.qpc_ts) →
      (∀ ev ∈ evs, ev.qpc_ts < (k0 + n) * D) →
      (drainWindows ⟨evs, N, d⟩ D k0 n).1.flatten = evs := by
  intro n
  induction n with
  | zero =>
    intro k0 evs N d hs hlen h1 h2
    cases evs with
    | nil => rfl
    | cons a l =>
      exfalso
      have ha1 := h1 a (List.mem_cons_self a l)
      have ha2 := h2 a (List.mem_cons_self a l)
      rw [Nat.add_zero] at ha2
      exact absurd ha2 (Nat.not_lt.mpr ha1)
  | succ n ih =>
    intro k0 evs N d hs hlen h1 h2
    rw [drainWindows]
    have hr := drain_events_no_overflow evs N d (k0 * D) ((k0 + 1) * D) hs hlen
    have hpre : evs.filter (fun ev => k0 * D ≤ ev.qpc_ts) = evs := by
      rw [List.filter_eq_self]
      intro x hx
      simpa using h1 x hx
    rw [hpre] at hr
    rw [hr]
    rw [List.flatten_cons]
    have hsorted1 : TickOrdered (evs.filter (fun ev => (k0 + 1) * D ≤ ev.qpc_ts)) :=
      List.Pairwise.sublist (List.filter_sublist evs) hs
    have hlen1 : (evs.filter (fun ev => (k0 + 1) * D ≤ ev.qpc_ts)).length ≤ N :=
      le_trans (List.length_filter_le _ evs) hlen
    have hrest := ih (k0 + 1) (evs.filter (fun ev => (k0 + 1) * D ≤ ev.qpc_ts)) N d
      hsorted1 hlen1
      (by
        intro ev hev
        exact of_decide_eq_true (List.mem_filter.mp hev).2)
      (by
        intro ev hev
        have := h2 ev (List.mem_filter.mp hev).1
        have heq : k0 + 1 + n = k0 + (n + 1) := by omega
        rw [heq]
        exact this)
    rw [hrest]
    have hsplit : evs.filter (fun ev => ev.qpc_ts < (k0 + 1) * D)
        ++ evs.filter (fun ev => (k0 + 1) * D ≤ ev.qpc_ts) = evs := by
      rw [← takeWhile_lt_eq_filter _ _ hs, ← dropWhile_lt_eq_filter _ _ hs]
      apply List.takeWhile_append_dropWhile
    exact hsplit

theorem length_dropWhile_le {α : Type} (p : α → Bool) :
    ∀ l : List α, (l.dropWhile p).length ≤ l.length := by
  intro l
  induction l with
  | nil => exact Nat.le_refl 0
  | cons a l ih =>
    rw [List.dropWhile_cons]
    split
    · exact le_trans ih (Nat.le_succ _)
    · exact Nat.le_refl _

theorem length_takeWhile_le {α : Type} (p : α → Bool) :
    ∀ l : List α, (l.takeWhile p).length ≤ l.length := by
  intro l
  induction l with
  | nil => exact Nat.le_refl 0
  | cons a l ih =>
    rw [List.takeWhile_cons]
    split
    · simpa using ih
    · exact Nat.zero_le _

/-- Claim C2: on a tick-ordered buffer with no capacity overflow, each
`drain_events(start, end)` call returns exactly the buffered events with
`start ≤ ts < end`, in order; and iterating over consecutive windows
`[k*D, (k+1)*D)` that start at or below the first event and extend past
the last event returns, concatenated, the whole stream. -/
theorem drain_events_windowing :
    (∀ (evs : List InputEvent) (N d : Nat) (s e : Nat),
      TickOrdered evs → evs.length ≤ N →
      (RawInputCollector.drain_events ⟨evs, N, d⟩ [] s e).1
        = evs.filter (fun ev => s ≤ ev.qpc_ts ∧ ev.qpc_ts < e)) ∧
    (∀ (evs : List InputEvent) (N d D k0 n : Nat),
      TickOrdered evs → evs.length ≤ N →
      (∀ ev ∈ evs, k0 * D ≤ ev.qpc_ts) →
      (∀ ev ∈ evs, ev.qpc_ts < (k0 + n) * D) →
      (drainWindows ⟨evs, N, d⟩ D k0 n).1.flatten = evs) := by
  constructor
  · intro evs N d s e hs hlen
    rw [drain_events_no_overflow evs N d s e hs hlen]
    rw [List.filter_filter]
    apply List.filter_congr
    intro ev _
    by_cases h1 : s ≤ ev.qpc_ts <;> by_cases h2 : ev.qpc_ts < e <;> simp [h1, h2]
  · intro evs N d D k0 n hs hlen h1 h2
    exact drainWindows_join D n k0 evs N d hs hlen h1 h2

/-- Witness for claim C2's theorem at concrete inputs: three events at
ticks 5, 15, 25; draining `[10, 20)` returns exactly the tick-15 event,
and draining the three windows `[0,10), [10,20), [20,30)` returns the
whole stream. -/
theorem drain_events_windowing_witness :
    (RawInputCollector.drain_events
        ⟨[⟨5, .mouseWheel 1⟩, ⟨15, .mouseWheel 2⟩, ⟨25, .mouseWheel 3⟩], 10, 0⟩
        [] 10 20).1 = [⟨15, .mouseWheel 2⟩] ∧
    (drainWindows
        ⟨[⟨5, .mouseWheel 1⟩, ⟨15, .mouseWheel 2⟩, ⟨25, .mouseWheel 3⟩], 10, 0⟩
        10 0 3).1.flatten
      = [⟨5, .mouseWheel 1⟩, ⟨15, .mouseWheel 2⟩, ⟨25, .mouseWheel 3⟩] := by
  constructor
  · rw [drain_events_windowing.1
      [⟨5, .mouseWheel 1⟩, ⟨15, .mouseWheel 2⟩, ⟨25, .mouseWheel 3⟩] 10 0 10 20
      (by decide) (by decide)]
    decide
  · exact drain_events_windowing.2
      [⟨5, .mouseWheel 1⟩, ⟨15, .mouseWheel 2⟩, ⟨25, .mouseWheel 3⟩] 10 0 10 0 3
      (by decide) (by decide) (by decide) (by decide)

/- ## Claim C3: bounded queue and exact drop accounting -/

/-- Claim C3: after every `drain_events` call the deque holds at most
`max_events` events; and feeding `B > N` pending events into an empty
collector with capacity `N` before a drain returns at most `N` events and
leaves the dropped counter at exactly the excess `B - N`. -/
theorem drain_bounded_queue :
    (∀ (c : RawInputCollector) (pending : List InputEvent) (s e : Nat),
      ((c.drain_events pending s e).2).buffer.length ≤ c.max_events) ∧
    (∀ (evs : List InputEvent) (N : Nat) (s e : Nat),
      N < evs.length → evs.length - N ≤ U64_MAX →
      (RawInputCollector.drain_events ⟨[], N, 0⟩ evs s e).1.length ≤ N ∧
      ((RawInputCollector.drain_events ⟨[], N, 0⟩ evs s e).2).take_dropped_events.1
        = evs.length - N) := by
  constructor
  · intro c pending s e
    simp only [RawInputCollector.drain_events]
    refine le_trans (length_dropWhile_le _ _) (le_trans (enforce_limit_buffer_length _) ?_)
    show (RawInputCollector.enforce_limit
      { c with buffer := c.buffer ++ pending }).max_events ≤ c.max_events
    rw [enforce_limit_max_events]
  · intro evs N s e hlt hmax
    simp only [RawInputCollector.drain_events, List.nil_append]
    have hei : RawInputCollector.enforce_limit ⟨evs, N, 0⟩
        = ⟨evs.drop (evs.length - N), N, evs.length - N⟩ := by
      rw [RawInputCollector.enforce_limit]
      rw [if_neg (by simp; omega)]
      simp only [u64SatAdd, Nat.zero_add]
      rw [Nat.min_eq_left hmax]
    rw [hei]
    have hlen2 : ((evs.drop (evs.length - N)).dropWhile (fun ev => ev.qpc_ts < s)).length ≤ N := by
      refine le_trans (length_dropWhile_le _ _) ?_
      simp only [List.length_drop]
      omega
    have he2 := enforce_limit_of_le
      ⟨(evs.drop (evs.length - N)).dropWhile (fun ev => ev.qpc_ts < s), N, evs.length - N⟩
      hlen2
    simp only [he2]
    exact ⟨le_trans (length_takeWhile_le _ _) hlen2, rfl⟩

/-- Witness for claim C3's theorem at the spec's concrete scenario:
25000 pending events against capacity 20000 yield at most 20000 returned
events and a dropped counter of exactly 5000. -/
theorem drain_bounded_queue_witness :
    (RawInputCollector.drain_events ⟨[], 20000, 0⟩
        ((List.range 25000).map fun i => ⟨i, .mouseWheel 1⟩) 0 100).1.length ≤ 20000 ∧
    ((RawInputCollector.drain_events ⟨[], 20000, 0⟩
        ((List.range 25000).map fun i => ⟨i, .mouseWheel 1⟩) 0 100).2).take_dropped_events.1
      = 5000 := by
  have hlen : ((List.range 25000).map fun i => (⟨i, .mouseWheel 1⟩ : InputEvent)).length
      = 25000 := by
    rw [List.length_map, List.length_range]
  have h := drain_bounded_queue.2
    ((List.range 25000).map fun i => ⟨i, .mouseWheel 1⟩) 20000 0 100
    (by rw [hlen]; omega) (by rw [hlen]; decide)
  rw [hlen] at h
  exact h

/- ## Claim C10: pre-window events are discarded silently -/

/-- Claim C10: `drain_events` discards buffered events older than `start`
without returning them and without touching the dropped counter;
`take_dropped_events` returns only the capacity-overflow count and resets
it to zero. -/
theorem drain_pre_window_discard :
    (∀ c : RawInputCollector,
      c.take_dropped_events = (c.dropped_events, { c with dropped_events := 0 })) ∧
    (∀ (evs : List InputEvent) (N d : Nat) (s e : Nat),
      TickOrdered evs → evs.length ≤ N →
      ((RawInputCollector.drain_events ⟨evs, N, d⟩ [] s e).2).dropped_events = d ∧
      ∀ ev ∈ evs, ev.qpc_ts < s →
        ev ∉ (RawInputCollector.drain_events ⟨evs, N, d⟩ [] s e).1 ∧
        ev ∉ ((RawInputCollector.drain_events ⟨evs, N, d⟩ [] s e).2).buffer) := by
  constructor
  · intro c
    rfl
  · intro evs N d s e hs hlen
    rw [drain_events_no_overflow evs N d s e hs hlen]
    refine ⟨rfl, ?_⟩
    intro ev _ hev
    constructor
    · intro hmem
      have h1 : s ≤ ev.qpc_ts := by
        simpa using (List.mem_filter.mp ((List.mem_filter.mp hmem).1)).2
      exact absurd (Nat.lt_of_lt_of_le hev h1) (Nat.lt_irrefl _)
    · intro hmem
      have h1 : s ≤ ev.qpc_ts := by
        simpa using (List.mem_filter.mp ((List.mem_filter.mp hmem).1)).2
      exact absurd (Nat.lt_of_lt_of_le hev h1) (Nat.lt_irrefl _)

/-- Witness for claim C10's theorem at a concrete input: the tick-5 event
is dropped by a `[10, 20)` drain without appearing in the output, the
remaining buffer, or the dropped counter. -/
theorem drain_pre_window_discard_witness :
    ((RawInputCollector.drain_events
        ⟨[⟨5, .mouseWheel 1⟩, ⟨15, .mouseWheel 2⟩, ⟨25, .mouseWheel 3⟩], 10, 0⟩
        [] 10 20).2).dropped_events = 0 ∧
    (⟨5, .mouseWheel 1⟩ : InputEvent) ∉
      (RawInputCollector.drain_events
        ⟨[⟨5, .mouseWheel 1⟩, ⟨15, .mouseWheel 2⟩, ⟨25, .mouseWheel 3⟩], 10, 0⟩
        [] 10 20).1 := by
  have h := drain_pre_window_discard.2
    [⟨5, .mouseWheel 1⟩, ⟨15, .mouseWheel 2⟩, ⟨25, .mouseWheel 3⟩] 10 0 10 20
    (by decide) (by decide)
  exact ⟨h.1, (h.2 ⟨5, .mouseWheel 1⟩ (by decide) (by decide)).1⟩

/- ## Claim C4: foreground zeroing -/

/-- Claim C4: for every event list, window, step index, cursor sample and
prior state, `aggregate_window` with `is_foreground = false` returns a
snapshot with zero mouse deltas and wheel, empty `down`/`pressed`/`released`
lists, the all-false default button mask, and exactly the provided cursor
sample. -/
theorem foreground_zeroing (events : List InputEvent)
    (ws we : Nat) (si : StepIndex) (cp : CursorProvider)
    (st : AggregatorState) :
    (aggregate_window events ws we si false cp st).1.mouse.dx = 0 ∧
    (aggregate_window events ws we si false cp st).1.mouse.dy = 0 ∧
    (aggregate_window events ws we si false cp st).1.mouse.wheel = 0 ∧
    (aggregate_window events ws we si false cp st).1.keyboard.down = [] ∧
    (aggregate_window events ws we si false cp st).1.keyboard.pressed = [] ∧
    (aggregate_window events ws we si false cp st).1.keyboard.released = [] ∧
    (aggregate_window events ws we si false cp st).1.mouse.buttons =
      { left := false, right := false, middle := false, x1 := false, x2 := false } ∧
    (aggregate_window events ws we si false cp st).1.mouse.cursor = cp.sample := by
  simp [aggregate_window]

/- ## Claim C5: background windows still update `state.down` -/

/-- Claim C5 counterexample: with `is_foreground = false` and a single
in-window `KeyDown "W"` event, `aggregate_window` does *not* leave the
state unchanged — the event loop (src/aggregator/src/lib.rs:54-80) runs
before the foreground check and inserts `"W"` into `state.down_keys`. -/
theorem background_keydown_mutates_state :
    (aggregate_window [⟨10, .keyDown (("W").data)⟩] 0 200 0 false
        ⟨true, 0, 0⟩ ⟨[]⟩).2 ≠ (⟨[]⟩ : AggregatorState) := by
  decide

/-- Claim C5 amended: with `is_foreground = false`, `aggregate_window`
still applies every in-window KeyDown/KeyUp event to `state.down`; the
resulting state is exactly the one the same call with
`is_foreground = true` would produce (only the emitted snapshot is
zeroed). -/
theorem background_state_update (events : List InputEvent)
    (ws we : Nat) (si : StepIndex) (cp : CursorProvider)
    (st : AggregatorState) :
    (aggregate_window events ws we si false cp st).2 =
      (aggregate_window events ws we si true cp st).2 := by
  rfl

/- ## Claim C1: transactional finalize -/

/-- Claim C1: `SessionWriter::finalize` is transactional.  If any step
fails, the directory state is unchanged — in particular the final
directory `<name>/` does not exist afterwards when it did not exist
before, and the temp directory remains.  If `finalize` succeeds, the final
directory did not pre-exist, and afterwards the temp directory is gone and
the final directory exists (the state produced by the single rename).
If the final directory appeared before the rename, `finalize` fails. -/
theorem finalize_transactional (env : FinalizeEnv) (fs : FsState)
    (htemp : fs.temp_exists = true) :
    ((finalize env fs).2 = false → (finalize env fs).1 = fs) ∧
    ((finalize env fs).2 = false → fs.root_exists = false →
      (finalize env fs).1.root_exists = false ∧ (finalize env fs).1.temp_exists = true) ∧
    ((finalize env fs).2 = true → fs.root_exists = false ∧
      (finalize env fs).1.temp_exists = false ∧ (finalize env fs).1.root_exists = true) ∧
    (fs.root_exists = true → (finalize env fs).2 = false) := by
  obtain ⟨a1, a2, a3, a4, a5, a6, a7, a8⟩ := env
  obtain ⟨t, r⟩ := fs
  revert htemp
  revert a1 a2 a3 a4 a5 a6 a7 a8 t r
  decide

/-- Witness for claim C1's theorem at a concrete input: with every step
succeeding and only the temp directory present, `finalize` succeeds, the
temp directory is gone and the final directory exists. -/
theorem finalize_transactional_witness :
    (finalize ⟨true, true, true, true, true, true, true, true⟩ ⟨true, false⟩).2 = true ∧
    (finalize ⟨true, true, true, true, true, true, true, true⟩ ⟨true, false⟩).1.temp_exists = false ∧
    (finalize ⟨true, true, true, true, true, true, true, true⟩ ⟨true, false⟩).1.root_exists = true := by
  have h := finalize_transactional ⟨true, true, true, true, true, true, true, true⟩
    ⟨true, false⟩ rfl
  exact ⟨rfl, (h.2.2.1 rfl).2.1, (h.2.2.1 rfl).2.2⟩

/- ## Claim C6: snapshot saturates, compiled string clamps -/

theorem clamp_bounds (v limit : Int) (h : 0 ≤ limit) :
    -limit ≤ clamp v limit ∧ clamp v limit ≤ limit := by
  unfold clamp
  split
  · omega
  · split <;> omega

/-- Claim C6: the structured snapshot's mouse deltas are the saturating
i32 sums of the event deltas with no further clamp, while the compiled
action's DX/DY are clamped to `[-1000, 1000]` and WHEEL to `[-5, 5]`.
With cumulative `dx = +2000, dy = -1500` in one window the snapshot keeps
`2000 / -1500` but the compiled string reads `1000 -1000`. -/
theorem snapshot_saturates_compiled_clamps :
    (∀ (events : List InputEvent) (ws we : Nat) (ks : List Str),
      -1000 ≤ (compile_window events ws we ks).dx ∧
      (compile_window events ws we ks).dx ≤ 1000 ∧
      -1000 ≤ (compile_window events ws we ks).dy ∧
      (compile_window events ws we ks).dy ≤ 1000 ∧
      -5 ≤ (compile_window events ws we ks).wheel ∧
      (compile_window events ws we ks).wheel ≤ 5) ∧
    (aggregate_window
        [⟨10, .mouseMove 1500 (-800)⟩, ⟨20, .mouseMove 500 (-700)⟩]
        0 200 0 true ⟨true, 0, 0⟩ ⟨[]⟩).1.mouse.dx = 2000 ∧
    (aggregate_window
        [⟨10, .mouseMove 1500 (-800)⟩, ⟨20, .mouseMove 500 (-700)⟩]
        0 200 0 true ⟨true, 0, 0⟩ ⟨[]⟩).1.mouse.dy = -1500 ∧
    compile_action_string
        [⟨10, .mouseMove 1500 (-800)⟩, ⟨20, .mouseMove 500 (-700)⟩]
        0 200 []
      = ("<|action_start|>1000 -1000 0 ; ; ; ; ; ;<|action_end|>").data := by
  refine ⟨?_, by decide, by decide, by decide⟩
  intro events ws we ks
  unfold compile_window
  dsimp only
  exact ⟨(clamp_bounds _ DX_CLAMP (by decide)).1, (clamp_bounds _ DX_CLAMP (by decide)).2,
         (clamp_bounds _ DX_CLAMP (by decide)).1, (clamp_bounds _ DX_CLAMP (by decide)).2,
         (clamp_bounds _ WHEEL_CLAMP (by decide)).1, (clamp_bounds _ WHEEL_CLAMP (by decide)).2⟩

/- ## Claim C8: canonical key ordering -/

theorem keyLe_iff (a b : Str) :
    keyLe a b = true ↔
      ((key_rank a).1 < (key_rank b).1 ∨
        ((key_rank a).1 = (key_rank b).1 ∧
          ((key_rank a).2 < (key_rank b).2 ∨
            ((key_rank a).2 = (key_rank b).2 ∧ strLt b a = false)))) := by
  unfold keyLe
  split_ifs with h1 h2 h3 h4
  · simp [h1]
  · simp only [false_iff]
    rintro (h | ⟨heq, _⟩) <;> omega
  · simp only [true_iff]
    exact Or.inr ⟨by omega, Or.inl h3⟩
  · simp only [false_iff]
    rintro (h | ⟨heq, h' | ⟨heq2, _⟩⟩) <;> omega
  · rw [Bool.not_eq_true']
    constructor
    · intro h
      exact Or.inr ⟨by omega, Or.inr ⟨by omega, h⟩⟩
    · rintro (h | ⟨heq, h' | ⟨heq2, h''⟩⟩)
      · omega
      · omega
      · exact h''

theorem keyLe_total (a b : Str) : keyLe a b = true ∨ keyLe b a = true := by
  rw [keyLe_iff, keyLe_iff]
  have hstr : strLt b a = false ∨ strLt a b = false := by
    cases hb : strLt b a
    · exact Or.inl rfl
    · exact Or.inr (strLt_asymm hb)
  rcases Nat.lt_trichotomy (key_rank a).1 (key_rank b).1 with h | h | h
  · exact Or.inl (Or.inl h)
  · rcases Nat.lt_trichotomy (key_rank a).2 (key_rank b).2 with h2 | h2 | h2
    · exact Or.inl (Or.inr ⟨h, Or.inl h2⟩)
    · rcases hstr with hs | hs
      · exact Or.inl (Or.inr ⟨h, Or.inr ⟨h2, hs⟩⟩)
      · exact Or.inr (Or.inr ⟨h.symm, Or.inr ⟨h2.symm, hs⟩⟩)
    · exact Or.inr (Or.inr ⟨h.symm, Or.inl h2⟩)
  · exact Or.inr (Or.inl h)

theorem keyLe_trans (a b c : Str) (hab : keyLe a b = true)
    (hbc : keyLe b c = true) : keyLe a c = true := by
  rw [keyLe_iff] at hab hbc ⊢
  rcases hab with h | ⟨he1, hab2⟩
  · rcases hbc with h' | ⟨he1', _⟩
    · exact Or.inl (lt_trans h h')
    · exact Or.inl (by omega)
  · rcases hbc with h' | ⟨he1', hbc2⟩
    · exact Or.inl (by omega)
    · refine Or.inr ⟨by omega, ?_⟩
      rcases hab2 with h2 | ⟨he2, hab3⟩
      · rcases hbc2 with h2' | ⟨he2', _⟩
        · exact Or.inl (lt_trans h2 h2')
        · exact Or.inl (by omega)
      · rcases hbc2 with h2' | ⟨he2', hbc3⟩
        · exact Or.inl (by omega)
        · refine Or.inr ⟨by omega, ?_⟩
          cases hca : strLt c a
          · rfl
          · exfalso
            cases hbc' : strLt b c
            · have hcb : b = c := strLt_connect hbc' hbc3
              rw [hcb] at hab3
              rw [hab3] at hca
              cases hca
            · have : strLt b a = true := strLt_trans hbc' hca
              rw [this] at hab3
              cases hab3

theorem keyLe_antisymm (a b : Str) (hab : keyLe a b = true)
    (hba : keyLe b a = true) : a = b := by
  rw [keyLe_iff] at hab hba
  rcases hab with h | ⟨he1, hab2⟩
  · rcases hba with h' | ⟨he1', _⟩ <;> (exfalso; omega)
  · rcases hba with h' | ⟨he1', hba2⟩
    · exfalso; omega
    · rcases hab2 with h2 | ⟨he2, habs⟩
      · rcases hba2 with h2' | ⟨he2', _⟩ <;> (exfalso; omega)
      · rcases hba2 with h2' | ⟨he2', hbas⟩
        · exfalso; omega
        · exact strLt_connect hbas habs

/-- Claim C8 counterexample: the numeric key group of `key_rank` does not
contain `"zero"` (src/compiler/src/lib.rs:156-158 starts at `"one"`), so
`sort_keys` orders `"one"` before `"zero"` while the claimed ordering —
digit names `zero..nine` in the numeric group — puts `"zero"` first. -/
theorem sort_keys_zero_counterexample :
    sort_keys [("zero").data, ("one").data] = [("one").data, ("zero").data] ∧
    spec_sort_keys [("zero").data, ("one").data] = [("zero").data, ("one").data] ∧
    sort_keys [("zero").data, ("one").data]
      ≠ spec_sort_keys [("zero").data, ("one").data] := by
  decide

/-- Claim C8 amended: the bin ordering is a deterministic function of the
key set — `sort_keys` permutes its input, sorts it by the rank-then-index-
then-lexicographic comparison of the amended table (mouse buttons, then
modifiers, then movement, then navigation, then the numeric group
`one..nine` followed by `One..Twelve`, with all remaining keys — including
`"zero"` — last in lexicographic order), and gives the same output on any
permutation of the same keys. -/
theorem sort_keys_canonical (keys keys2 : List Str) :
    List.Perm (sort_keys keys) keys ∧
    (sort_keys keys).Pairwise (fun a b => claimKeyLe a b = true) ∧
    (List.Perm keys keys2 → sort_keys keys = sort_keys keys2) := by
  refine ⟨perm_sortBy keyLe keys, ?_, ?_⟩
  · exact pairwise_sortBy keyLe keyLe_trans keyLe_total keys
  · intro hp
    haveI : IsAntisymm Str (fun a b => keyLe a b = true) := ⟨keyLe_antisymm⟩
    have hperm := ((perm_sortBy keyLe keys).trans hp).trans (perm_sortBy keyLe keys2).symm
    exact List.eq_of_perm_of_sorted hperm
      (pairwise_sortBy keyLe keyLe_trans keyLe_total keys)
      (pairwise_sortBy keyLe keyLe_trans keyLe_total keys2)

/- ## Claim C7: lemmas about the compiled-format acceptor -/

theorem dropLit_append : ∀ (l r : Str), dropLit l (l ++ r) = some r := by
  intro l
  induction l with
  | nil => intro r; rfl
  | cons c cs ih =>
    intro r
    show (if c = c then dropLit cs (cs ++ r) else none) = some r
    rw [if_pos rfl]
    exact ih r

theorem takeWhile_all_append {α : Type} (p : α → Bool) :
    ∀ (k r : List α), (∀ c ∈ k, p c = true) →
      (r = [] ∨ ∃ c u, r = c :: u ∧ p c = false) →
      (k ++ r).takeWhile p = k ∧ (k ++ r).dropWhile p = r := by
  intro k
  induction k with
  | nil =>
    intro r _ hr
    rcases hr with rfl | ⟨c, u, rfl, hc⟩
    · exact ⟨rfl, rfl⟩
    · constructor
      · rw [List.nil_append, List.takeWhile_cons, hc]
        simp
      · rw [List.nil_append, List.dropWhile_cons, hc]
        simp

  | cons a k ih =>
    intro r hk hr
    have ha : p a = true := hk a (List.mem_cons_self a k)
    have hrest := ih r (fun c hc => hk c (List.mem_cons_of_mem a hc)) hr
    constructor
    · rw [List.cons_append, List.takeWhile_cons, ha]
      simp [hrest.1]
    · rw [List.cons_append, List.dropWhile_cons, ha]
      simp [hrest.2]

theorem dropWhile_all_append {α : Type} (p : α → Bool) :
    ∀ (k r : List α), (∀ c ∈ k, p c = true) →
      (k ++ r).dropWhile p = r.dropWhile p := by
  intro k
  induction k with
  | nil => intro r _; rfl
  | cons a k ih =>
    intro r hk
    rw [List.cons_append, List.dropWhile_cons, hk a (List.mem_cons_self a k)]
    simp [ih r (fun c hc => hk c (List.mem_cons_of_mem a hc))]

theorem dropWhile_eq_self_shape {α : Type} (p : α → Bool) (r : List α)
    (hr : r = [] ∨ ∃ c u, r = c :: u ∧ p c = false) : r.dropWhile p = r := by
  rcases hr with rfl | ⟨c, u, rfl, hc⟩
  · rfl
  · rw [List.dropWhile_cons, hc]
    simp

theorem digitChar_isDigit (n : Nat) (h : n < 10) : isDigitCh (digitChar n) = true := by
  interval_cases n <;> decide

theorem natDigitsAux_all_digits :
    ∀ (fuel n : Nat), ∀ c ∈ natDigitsAux fuel n, isDigitCh c = true := by
  intro fuel
  induction fuel with
  | zero =>
    intro n c hc
    simp [natDigitsAux] at hc
  | succ f ih =>
    intro n c hc
    by_cases hn : n < 10
    · rw [natDigitsAux, if_pos hn] at hc
      rcases List.mem_singleton.mp hc with rfl
      exact digitChar_isDigit n hn
    · rw [natDigitsAux, if_neg hn] at hc
      rcases List.mem_append.mp hc with h' | h'
      · exact ih _ c h'
      · rcases List.mem_singleton.mp h' with rfl
        exact digitChar_isDigit _ (Nat.mod_lt n (by omega))

theorem natDigits_all_digits (n : Nat) : ∀ c ∈ natDigits n, isDigitCh c = true :=
  natDigitsAux_all_digits (n + 1) n

theorem natDigits_ne_nil (n : Nat) : natDigits n ≠ [] := by
  rw [natDigits, natDigitsAux]
  split
  · simp
  · simp

theorem isDigit_ne_hyphen {c : Char} (h : isDigitCh c = true) : ¬ c = ('-') := by
  intro he
  subst he
  exact absurd h (by decide)

theorem mem_intToStr {c : Char} {n : Int} (h : c ∈ intToStr n) :
    c = ('-') ∨ isDigitCh c = true := by
  rw [intToStr] at h
  split at h
  · rcases List.mem_cons.mp h with rfl | h'
    · exact Or.inl rfl
    · exact Or.inr (natDigits_all_digits _ c h')
  · exact Or.inr (natDigits_all_digits _ c h)

theorem parseIntTok_append (n : Int) (r : Str)
    (hr : r = [] ∨ ∃ c u, r = c :: u ∧ isDigitCh c = false) :
    parseIntTok (intToStr n ++ r) = some r := by
  rw [intToStr]
  split
  · -- negative: '-' :: digits
    obtain ⟨d, ktail, hk⟩ := List.exists_cons_of_ne_nil (natDigits_ne_nil n.natAbs)
    have hdig := natDigits_all_digits n.natAbs
    rw [hk] at hdig ⊢
    have htd := takeWhile_all_append isDigitCh (d :: ktail) r hdig hr
    show (if ((((d :: ktail) ++ r).takeWhile isDigitCh).isEmpty) = true then none
      else some (((d :: ktail) ++ r).dropWhile isDigitCh)) = some r
    rw [htd.1, htd.2]
    rfl
  · -- nonnegative: digits only
    obtain ⟨d, ktail, hk⟩ := List.exists_cons_of_ne_nil (natDigits_ne_nil n.toNat)
    have hdig := natDigits_all_digits n.toNat
    rw [hk] at hdig ⊢
    have htd := takeWhile_all_append isDigitCh (d :: ktail) r hdig hr
    have hd : isDigitCh d = true := hdig d (List.mem_cons_self d ktail)
    have hcond : ¬ (((d :: ktail) ++ r).head? = some ('-')) := by
      show ¬ (some d = some ('-'))
      intro hcontra
      exact isDigit_ne_hyphen hd (by injection hcontra)
    rw [parseIntTok, if_neg hcond, htd.1, htd.2]
    rfl

theorem parseKeysAux_cons (f : Nat) (c2 : Char) (rest : Str)
    (h : keyChar c2 = true) :
    parseKeysAux (f + 1) (' ' :: c2 :: rest)
      = parseKeysAux f (rest.dropWhile keyChar) := by
  show (if (' ' : Char) = ' ' then
      (if keyChar c2 = true then parseKeysAux f (rest.dropWhile keyChar)
        else ' ' :: c2 :: rest)
      else ' ' :: c2 :: rest) = parseKeysAux f (rest.dropWhile keyChar)
  rw [if_pos rfl, if_pos h]

theorem parseKeysAux_stop :
    ∀ (fuel : Nat) (t : Str),
      (t = [] ∨ (∃ u, t = ' ' :: ';' :: u) ∨ (∃ c u, t = c :: u ∧ ¬ c = ' ')) →
      parseKeysAux fuel t = t := by
  intro fuel t ht
  cases fuel with
  | zero => rfl
  | succ f =>
    rcases ht with rfl | ⟨u, rfl⟩ | ⟨c, u, rfl, hc⟩
    · rfl
    · rfl
    · cases u with
      | nil => rfl
      | cons c2 rest =>
        show (if c = ' ' then
            (if keyChar c2 = true then parseKeysAux f (rest.dropWhile keyChar)
              else c :: c2 :: rest)
            else c :: c2 :: rest) = c :: c2 :: rest
        rw [if_neg hc]

theorem parseKeysAux_consume :
    ∀ (bin : List Str) (fuel : Nat) (t : Str),
      (∀ k ∈ bin, GoodKey k) →
      (t = [] ∨ (∃ u, t = ' ' :: ';' :: u) ∨ (∃ u, t = '<' :: u)) →
      (binBody bin ++ t).length ≤ fuel →
      parseKeysAux fuel (binBody bin ++ t) = t := by
  intro bin
  induction bin with
  | nil =>
    intro fuel t _ ht _
    have hb : binBody [] = [] := rfl
    rw [hb, List.nil_append]
    apply parseKeysAux_stop
    rcases ht with rfl | ⟨u, rfl⟩ | ⟨u, rfl⟩
    · exact Or.inl rfl
    · exact Or.inr (Or.inl ⟨u, rfl⟩)
    · exact Or.inr (Or.inr ⟨'<', u, rfl, by decide⟩)
  | cons k bin' ih =>
    intro fuel t hgood ht hfuel
    obtain ⟨hk_ne, hk_chars⟩ := hgood k (List.mem_cons_self k bin')
    obtain ⟨d, ktail, rfl⟩ := List.exists_cons_of_ne_nil hk_ne
    have hd : keyChar d = true := hk_chars d (List.mem_cons_self d ktail)
    have hkt : ∀ c ∈ ktail, keyChar c = true :=
      fun c hc => hk_chars c (List.mem_cons_of_mem d hc)
    have htshape : t.dropWhile keyChar = t := by
      apply dropWhile_eq_self_shape
      rcases ht with rfl | ⟨u, rfl⟩ | ⟨u, rfl⟩
      · exact Or.inl rfl
      · exact Or.inr ⟨' ', ';' :: u, rfl, by decide⟩
      · exact Or.inr ⟨'<', u, rfl, by decide⟩
    cases bin' with
    | nil =>
      have hshape : binBody ((d :: ktail) :: []) ++ t = ' ' :: d :: (ktail ++ t) := by
        show (' ' :: joinSp [d :: ktail]) ++ t = ' ' :: d :: (ktail ++ t)
        show (' ' :: (d :: ktail)) ++ t = ' ' :: d :: (ktail ++ t)
        rfl
      rw [hshape] at hfuel ⊢
      cases fuel with
      | zero => simp at hfuel
      | succ f =>
        rw [parseKeysAux_cons f d _ hd]
        rw [dropWhile_all_append keyChar ktail t hkt, htshape]
        apply parseKeysAux_stop
        rcases ht with rfl | ⟨u, rfl⟩ | ⟨u, rfl⟩
        · exact Or.inl rfl
        · exact Or.inr (Or.inl ⟨u, rfl⟩)
        · exact Or.inr (Or.inr ⟨'<', u, rfl, by decide⟩)
    | cons k2 bin'' =>
      have hshape : binBody ((d :: ktail) :: k2 :: bin'') ++ t
          = ' ' :: d :: (ktail ++ (binBody (k2 :: bin'') ++ t)) := by
        show (' ' :: joinSp ((d :: ktail) :: k2 :: bin'')) ++ t = _
        show (' ' :: ((d :: ktail) ++ ' ' :: joinSp (k2 :: bin''))) ++ t = _
        show ' ' :: d :: ((ktail ++ ' ' :: joinSp (k2 :: bin'')) ++ t)
          = ' ' :: d :: (ktail ++ ((' ' :: joinSp (k2 :: bin'')) ++ t))
        rw [List.append_assoc]
      rw [hshape] at hfuel ⊢
      cases fuel with
      | zero => simp at hfuel
      | succ f =>
        rw [parseKeysAux_cons f d _ hd]
        rw [dropWhile_all_append keyChar ktail _ hkt]
        have hbin2 : (binBody (k2 :: bin'') ++ t).dropWhile keyChar
            = binBody (k2 :: bin'') ++ t := by
          apply dropWhile_eq_self_shape
          refine Or.inr ⟨' ', joinSp (k2 :: bin'') ++ t, ?_, by decide⟩
          show (' ' :: joinSp (k2 :: bin'')) ++ t = ' ' :: (joinSp (k2 :: bin'') ++ t)
          rfl
        rw [hbin2]
        apply ih f t (fun k hk => hgood k (List.mem_cons_of_mem _ hk)) ht
        simp only [List.length_cons, List.length_append] at hfuel ⊢
        omega

theorem parseKeys_consume (bin : List Str) (t : Str)
    (hgood : ∀ k ∈ bin, GoodKey k)
    (ht : t = [] ∨ (∃ u, t = ' ' :: ';' :: u) ∨ (∃ u, t = '<' :: u)) :
    parseKeys (binBody bin ++ t) = t :=
  parseKeysAux_consume bin (binBody bin ++ t).length t hgood ht (Nat.le_refl _)

theorem dropLit_single (c : Char) (r : Str) : dropLit [c] (c :: r) = some r := by
  show (if c = c then dropLit [] r else none) = some r
  rw [if_pos rfl]
  rfl

theorem parseBinGroup_consume (bin : List Str) (t : Str)
    (hgood : ∀ k ∈ bin, GoodKey k)
    (ht : t = [] ∨ (∃ u, t = ' ' :: ';' :: u) ∨ (∃ u, t = '<' :: u)) :
    parseBinGroup ((' ' :: ';' :: binBody bin) ++ t) = some t := by
  rw [parseBinGroup]
  have h0 : (' ' :: ';' :: binBody bin) ++ t = [' ', ';'] ++ (binBody bin ++ t) := by
    simp
  rw [h0, dropLit_append]
  show some (parseKeys (binBody bin ++ t)) = some t
  rw [parseKeys_consume bin t hgood ht]

theorem parseBinGroups_joinBins :
    ∀ (bins : List (List Str)),
      (∀ bin ∈ bins, ∀ k ∈ bin, GoodKey k) →
      parseBinGroups bins.length (joinBins bins ++ actionEnd) = some actionEnd := by
  intro bins
  induction bins with
  | nil => intro _; rfl
  | cons bin rest ih =>
    intro hgood
    show parseBinGroups (rest.length + 1)
      (((' ' :: ';' :: binBody bin) ++ joinBins rest) ++ actionEnd) = some actionEnd
    rw [List.append_assoc]
    show (parseBinGroup ((' ' :: ';' :: binBody bin) ++ (joinBins rest ++ actionEnd))).bind
      (parseBinGroups rest.length) = some actionEnd
    have ht : (joinBins rest ++ actionEnd) = [] ∨
        (∃ u, joinBins rest ++ actionEnd = ' ' :: ';' :: u) ∨
        (∃ u, joinBins rest ++ actionEnd = '<' :: u) := by
      cases rest with
      | nil =>
        refine Or.inr (Or.inr ⟨("|action_end|>").data, ?_⟩)
        rfl
      | cons b br =>
        refine Or.inr (Or.inl ⟨(binBody b ++ joinBins br) ++ actionEnd, ?_⟩)
        rfl
    rw [parseBinGroup_consume bin _ (hgood bin (List.mem_cons_self bin rest)) ht]
    show parseBinGroups rest.length (joinBins rest ++ actionEnd) = some actionEnd
    exact ih (fun b hb k hk => hgood b (List.mem_cons_of_mem bin hb) k hk)

theorem dropLit_self : ∀ l : Str, dropLit l l = some [] := by
  intro l
  induction l with
  | nil => rfl
  | cons c cs ih =>
    show (if c = c then dropLit cs cs else none) = some []
    rw [if_pos rfl]
    exact ih

theorem matchesActionRegex_format (dx dy wheel : Int) (bins : List (List Str))
    (hlen : bins.length = 6)
    (hgood : ∀ bin ∈ bins, ∀ k ∈ bin, GoodKey k) :
    matchesActionRegex (format_action_string dx dy wheel bins) = true := by
  have htake : bins.take BIN_COUNT = bins :=
    List.take_of_length_le (le_of_eq hlen)
  obtain ⟨b1, br, rfl⟩ : ∃ b1 br, bins = b1 :: br := by
    cases bins with
    | nil => simp at hlen
    | cons b1 br => exact ⟨b1, br, rfl⟩
  have hws : joinBins (b1 :: br) ++ actionEnd
      = ' ' :: ((';' :: binBody b1 ++ joinBins br) ++ actionEnd) := rfl
  rw [matchesActionRegex, format_action_string, htake, dropLit_append]
  dsimp only [Option.bind]
  rw [parseIntTok_append dx _ (Or.inr ⟨' ', _, rfl, by decide⟩)]
  dsimp only [Option.bind]
  rw [dropLit_single]
  dsimp only [Option.bind]
  rw [parseIntTok_append dy _ (Or.inr ⟨' ', _, rfl, by decide⟩)]
  dsimp only [Option.bind]
  rw [dropLit_single]
  dsimp only [Option.bind]
  rw [parseIntTok_append wheel _ (Or.inr ⟨' ',
    (';' :: binBody b1 ++ joinBins br) ++ actionEnd, hws, by decide⟩)]
  dsimp only [Option.bind]
  rw [← hlen, parseBinGroups_joinBins (b1 :: br) hgood]
  dsimp only [Option.bind]
  rw [dropLit_self]
  rfl

theorem countSemi_append (s t : Str) :
    countSemi (s ++ t) = countSemi s + countSemi t := by
  simp [countSemi, List.count_append]

theorem countSemi_eq_zero {s : Str} (h : (';') ∉ s) : countSemi s = 0 := by
  simp [countSemi, List.count_eq_zero, h]

theorem countSemi_space_cons (s : Str) : countSemi (' ' :: s) = countSemi s := by
  simp only [countSemi]
  rw [List.count_cons_of_ne (by decide)]

theorem countSemi_intToStr (n : Int) : countSemi (intToStr n) = 0 := by
  apply countSemi_eq_zero
  intro hmem
  rcases mem_intToStr hmem with h | h
  · exact absurd h (by decide)
  · exact absurd h (by decide)

theorem mem_joinSp {c : Char} :
    ∀ {bin : List Str}, c ∈ joinSp bin → c = ' ' ∨ ∃ k ∈ bin, c ∈ k := by
  intro bin
  induction bin with
  | nil =>
    intro h
    simp [joinSp] at h
  | cons k rest ih =>
    intro h
    cases rest with
    | nil => exact Or.inr ⟨k, List.mem_cons_self k [], h⟩
    | cons k2 rest2 =>
      have h' : c ∈ k ++ (' ' :: joinSp (k2 :: rest2)) := h
      rcases List.mem_append.mp h' with h1 | h1
      · exact Or.inr ⟨k, List.mem_cons_self k _, h1⟩
      · rcases List.mem_cons.mp h1 with rfl | h2
        · exact Or.inl rfl
        · rcases ih h2 with h3 | ⟨k3, hk3, hc3⟩
          · exact Or.inl h3
          · exact Or.inr ⟨k3, List.mem_cons_of_mem _ hk3, hc3⟩

theorem countSemi_binBody {bin : List Str} (h : ∀ k ∈ bin, GoodKey k) :
    countSemi (binBody bin) = 0 := by
  apply countSemi_eq_zero
  intro hmem
  cases bin with
  | nil => simp [binBody] at hmem
  | cons k rest =>
    have hmem' : (';') ∈ ' ' :: joinSp (k :: rest) := hmem
    rcases List.mem_cons.mp hmem' with h1 | h1
    · exact absurd h1 (by decide)
    · rcases mem_joinSp h1 with h2 | ⟨k3, hk3, hc3⟩
      · exact absurd h2 (by decide)
      · exact absurd ((h k3 hk3).2 _ hc3) (by decide)

theorem countSemi_joinBins :
    ∀ (bins : List (List Str)), (∀ bin ∈ bins, ∀ k ∈ bin, GoodKey k) →
      countSemi (joinBins bins) = bins.length := by
  intro bins
  induction bins with
  | nil => intro _; rfl
  | cons bin rest ih =>
    intro hgood
    show countSemi ((' ' :: ';' :: binBody bin) ++ joinBins rest) = rest.length + 1
    rw [countSemi_append, countSemi_space_cons]
    have h1 : countSemi (';' :: binBody bin) = countSemi (binBody bin) + 1 := by
      simp [countSemi, List.count_cons_self]
    rw [h1, countSemi_binBody (hgood bin (List.mem_cons_self bin rest)),
      ih (fun b hb k hk => hgood b (List.mem_cons_of_mem bin hb) k hk)]
    omega

theorem countSemi_format (dx dy wheel : Int) (bins : List (List Str))
    (hlen : bins.length = 6)
    (hgood : ∀ bin ∈ bins, ∀ k ∈ bin, GoodKey k) :
    countSemi (format_action_string dx dy wheel bins) = 6 := by
  have htake : bins.take BIN_COUNT = bins :=
    List.take_of_length_le (le_of_eq hlen)
  rw [format_action_string, htake]
  rw [countSemi_append, countSemi_append, countSemi_space_cons, countSemi_append,
    countSemi_space_cons, countSemi_append, countSemi_append]
  rw [countSemi_intToStr, countSemi_intToStr, countSemi_intToStr,
    countSemi_joinBins bins hgood, hlen]
  have h1 : countSemi actionStart = 0 := by decide
  have h2 : countSemi actionEnd = 0 := by decide
  rw [h1, h2]

/- Good-key invariants of the compiled-window construction. -/

theorem good_mouse_button_name (b : MouseButton) : GoodKey (mouse_button_name b) := by
  cases b <;> decide

theorem compStep_good {acc : BinAcc} {e : InputEvent}
    (hdown : ∀ k ∈ acc.down, GoodKey k) (hbin : ∀ k ∈ acc.bin_keys, GoodKey k)
    (he : GoodEvent e) :
    (∀ k ∈ (compStep acc e).down, GoodKey k) ∧
    (∀ k ∈ (compStep acc e).bin_keys, GoodKey k) := by
  rw [compStep]
  rw [GoodEvent] at he
  cases he2 : e.kind with
  | keyDown key =>
    rw [he2] at he
    constructor
    · intro k hk
      rcases mem_setInsert.mp hk with h | rfl
      · exact hdown k h
      · exact he
    · intro k hk
      rcases mem_setInsert.mp hk with h | rfl
      · exact hbin k h
      · exact he
  | keyUp key =>
    exact ⟨fun k hk => hdown k (mem_setRemove.mp hk).1, hbin⟩
  | mouseMove edx edy => exact ⟨hdown, hbin⟩
  | mouseWheel delta => exact ⟨hdown, hbin⟩
  | mouseButton button is_down =>
    dsimp only
    split
    · constructor
      · intro k hk
        rcases mem_setInsert.mp hk with h | rfl
        · exact hdown k h
        · exact good_mouse_button_name button
      · intro k hk
        rcases mem_setInsert.mp hk with h | rfl
        · exact hbin k h
        · exact good_mouse_button_name button
    · exact ⟨fun k hk => hdown k (mem_setRemove.mp hk).1, hbin⟩

theorem binLoop_good (bin_end : Nat) :
    ∀ (events : List InputEvent) (acc : BinAcc),
      (∀ e ∈ events, GoodEvent e) →
      (∀ k ∈ acc.down, GoodKey k) → (∀ k ∈ acc.bin_keys, GoodKey k) →
      (∀ e ∈ (binLoop bin_end events acc).1, GoodEvent e) ∧
      (∀ k ∈ (binLoop bin_end events acc).2.down, GoodKey k) ∧
      (∀ k ∈ (binLoop bin_end events acc).2.bin_keys, GoodKey k) := by
  intro events
  induction events with
  | nil =>
    intro acc _ hdown hbin
    exact ⟨fun e he => absurd he (List.not_mem_nil e), hdown, hbin⟩
  | cons a l ih =>
    intro acc hev hdown hbin
    rw [binLoop]
    split
    · have hg := compStep_good hdown hbin (hev a (List.mem_cons_self a l))
      exact ih _ (fun e he => hev e (List.mem_cons_of_mem a he)) hg.1 hg.2
    · exact ⟨hev, hdown, hbin⟩

theorem binsLoop_good :
    ∀ (n bs base rem : Nat) (events : List InputEvent) (st : CompState),
      (∀ e ∈ events, GoodEvent e) → (∀ k ∈ st.down, GoodKey k) →
      ∀ bin ∈ (binsLoop n bs base rem events st).1, ∀ k ∈ bin, GoodKey k := by
  intro n
  induction n with
  | zero =>
    intro bs base rem events st _ _ bin hbin
    exact absurd hbin (List.not_mem_nil bin)
  | succ m ih =>
    intro bs base rem events st hev hdown bin hbin
    rw [binsLoop] at hbin
    have hbl := binLoop_good
      (if m = 0 then u64SatAdd bs (base + rem) else u64SatAdd bs base) events
      ⟨st.dx, st.dy, st.wheel, st.down, st.down⟩ hev hdown hdown
    rcases List.mem_cons.mp hbin with rfl | hbin'
    · intro k hk
      have hk1 : k ∈ sort_keys (binLoop
          (if m = 0 then u64SatAdd bs (base + rem) else u64SatAdd bs base) events
          ⟨st.dx, st.dy, st.wheel, st.down, st.down⟩).2.bin_keys :=
        List.mem_of_mem_take hk
      exact hbl.2.2 k (mem_sortBy.mp hk1)
    · exact ih _ _ _ _ _ hbl.1 hbl.2.1 bin hbin'

theorem binsLoop_length :
    ∀ (n bs base rem : Nat) (events : List InputEvent) (st : CompState),
      (binsLoop n bs base rem events st).1.length = n := by
  intro n
  induction n with
  | zero => intro bs base rem events st; rfl
  | succ m ih =>
    intro bs base rem events st
    rw [binsLoop]
    rw [List.length_cons, ih]

theorem binsLoop_bin_len :
    ∀ (n bs base rem : Nat) (events : List InputEvent) (st : CompState),
      ∀ bin ∈ (binsLoop n bs base rem events st).1, bin.length ≤ 4 := by
  intro n
  induction n with
  | zero =>
    intro bs base rem events st bin hbin
    exact absurd hbin (List.not_mem_nil bin)
  | succ m ih =>
    intro bs base rem events st bin hbin
    rw [binsLoop] at hbin
    rcases List.mem_cons.mp hbin with rfl | hbin'
    · rw [List.length_take]
      exact min_le_left 4 _
    · exact ih _ _ _ _ _ bin hbin'

theorem dropWhile_mem {α : Type} (p : α → Bool) :
    ∀ (l : List α) (a : α), a ∈ l.dropWhile p → a ∈ l := by
  intro l
  induction l with
  | nil => intro a h; exact h
  | cons x xs ih =>
    intro a h
    rw [List.dropWhile_cons] at h
    split at h
    · exact List.mem_cons_of_mem x (ih a h)
    · exact h

/- ## Claim C7: compiled wire format -/

/-- Claim C7 counterexample: an event list whose key name is the empty
string — which contains no space, `;` or `<` — still breaks the claimed
regex: the empty key makes every bin nonempty, the format emits a
trailing space after each bin's keys, and the output no longer matches
`( ;( [^ ;<]+)*){6}<\|action_end\|>$` (a space can only be followed by a
nonempty key token). -/
theorem compiled_format_counterexample :
    matchesActionRegex (compile_action_string [⟨0, .keyDown []⟩] 0 200 []) = false := by
  decide

/-- Claim C7 amended: for every event list and prior key state whose key
names are *nonempty* and contain no space, `;` or `<`, the compiled
string matches the regex
`^<\|action_start\|>-?\d+ -?\d+ -?\d+( ;( [^ ;<]+)*){6}<\|action_end\|>$`,
contains exactly six `;`, and every bin holds at most 4 keys; the empty
event list over `[0, 200)` compiles to exactly
`<|action_start|>0 0 0 ; ; ; ; ; ;<|action_end|>`. -/
theorem compiled_format_regex (events : List InputEvent) (ws we : Nat)
    (ks : List Str)
    (hev : ∀ e ∈ events, GoodEvent e) (hks : ∀ k ∈ ks, GoodKey k) :
    matchesActionRegex (compile_action_string events ws we ks) = true ∧
    countSemi (compile_action_string events ws we ks) = 6 ∧
    (∀ bin ∈ (compile_window events ws we ks).bins, bin.length ≤ 4) ∧
    compile_action_string [] 0 200 []
      = ("<|action_start|>0 0 0 ; ; ; ; ; ;<|action_end|>").data := by
  have hev1 : ∀ e ∈ events.dropWhile (fun ev => ev.qpc_ts < ws), GoodEvent e :=
    fun e he => hev e (dropWhile_mem _ events e he)
  have hlen : (compile_window events ws we ks).bins.length = 6 :=
    binsLoop_length BIN_COUNT ws _ _ _ _
  have hgood : ∀ bin ∈ (compile_window events ws we ks).bins, ∀ k ∈ bin, GoodKey k :=
    binsLoop_good BIN_COUNT ws _ _ _ ⟨0, 0, 0, ks⟩ hev1 hks
  refine ⟨?_, ?_, ?_, by decide⟩
  · exact matchesActionRegex_format _ _ _ _ hlen hgood
  · exact countSemi_format _ _ _ _ hlen hgood
  · exact binsLoop_bin_len BIN_COUNT ws _ _ _ _

/-- Witness for claim C7's amended theorem at a concrete input: a window
with a held `W` key produces a string accepted by the regex acceptor with
six `;`. -/
theorem compiled_format_regex_witness :
    matchesActionRegex (compile_action_string [⟨10, .keyDown (("W").data)⟩]
      0 200 []) = true ∧
    countSemi (compile_action_string [⟨10, .keyDown (("W").data)⟩] 0 200 []) = 6 := by
  have h := compiled_format_regex [⟨10, .keyDown (("W").data)⟩] 0 200 []
    (by intro e he; rcases List.mem_singleton.mp he with rfl; decide)
    (by intro k hk; cases hk)
  exact ⟨h.1, h.2.1⟩

/-- Witness for claim C8's amended theorem at a concrete input: sorting
the set `{W, MouseLeft, Shift}` in either input order yields
`[MouseLeft, Shift, W]`. -/
theorem sort_keys_canonical_witness :
    List.Perm (sort_keys [("W").data, ("MouseLeft").data, ("Shift").data])
      [("W").data, ("MouseLeft").data, ("Shift").data] ∧
    sort_keys [("W").data, ("MouseLeft").data, ("Shift").data]
      = sort_keys [("Shift").data, ("W").data, ("MouseLeft").data] := by
  have h := sort_keys_canonical [("W").data, ("MouseLeft").data, ("Shift").data]
    [("Shift").data, ("W").data, ("MouseLeft").data]
  exact ⟨h.1, h.2.2 (by decide)⟩

end Collector
